import Mathlib

/-!
Verification of the chain-libs state-management core: the `Multiverse`
versioned snapshot store with reference-counted `GCRoot` pinning and
garbage collection (`src/chain-impl-mockchain/src/multiverse.rs`), and the
persistent UTXO `Ledger` (`src/chain-impl-mockchain/src/utxo.rs`).

Modelling conventions:
* `HashMap<K, V>` / `BTreeMap<K, V>` / `HashSet<K>` become association
  lists `List (Nat × α)` / sorted association lists / duplicate-free
  `List Nat`.  `BTreeMap` iteration order (ascending keys) is realized by
  keeping the association list sorted by key at every insertion.
* Block identities, chain lengths, fragment ids, transaction indices and
  outputs are `Nat` (the source types are opaque hashable digests, `u32`,
  and `u8`; the arithmetic the code performs never overflows them on the
  inputs the claims quantify over, and where a width assumption matters it
  appears as an explicit hypothesis).
* Code that can panic (`unwrap`, `assert!`, `unreachable!`) is embedded in
  `Option` (for the Multiverse) or in `RustResult` (for the Ledger, whose
  operations also return recoverable errors): `none` / `.panicked` is a
  panic, everything else is the value the Rust code produces.
-/

/-- First-match lookup in an association list: the semantics of
`HashMap::get` / `BTreeMap::get` on our list embedding. -/
def alookup {α : Type} : List (Nat × α) → Nat → Option α
  | [], _ => none
  | (k, v) :: rest, key => if key = k then some v else alookup rest key

/-- Remove every entry with key `k`: the embedding of `HashMap::remove` /
`BTreeMap::remove` of a whole entry (on duplicate-free key lists this
removes exactly the one entry). -/
def aerase {α : Type} (l : List (Nat × α)) (k : Nat) : List (Nat × α) :=
  l.filter (fun p => decide (p.1 ≠ k))

/-- Replace the value stored at key `k0` by `b`: the embedding of writing
through an occupied `BTreeMap` entry. -/
def areplace {α : Type} (l : List (Nat × α)) (k0 : Nat) (b : α) : List (Nat × α) :=
  l.map (fun p => (p.1, if p.1 = k0 then b else p.2))

@[simp] theorem alookup_nil {α : Type} (key : Nat) : alookup ([] : List (Nat × α)) key = none := rfl

@[simp] theorem alookup_cons {α : Type} (k : Nat) (v : α) (rest : List (Nat × α)) (key : Nat) :
    alookup ((k, v) :: rest) key = if key = k then some v else alookup rest key := rfl

theorem alookup_mem {α : Type} {l : List (Nat × α)} {k : Nat} {v : α}
    (h : alookup l k = some v) : (k, v) ∈ l := by
  induction l with
  | nil => simp at h
  | cons p rest ih =>
    obtain ⟨k', v'⟩ := p
    by_cases hk : k = k'
    · subst hk
      simp at h
      simp [h]
    · simp [alookup, hk] at h
      exact List.mem_cons_of_mem _ (ih h)

theorem alookup_eq_none_of_not_mem_keys {α : Type} {l : List (Nat × α)} {k : Nat}
    (h : k ∉ l.map Prod.fst) : alookup l k = none := by
  induction l with
  | nil => rfl
  | cons p rest ih =>
    obtain ⟨k', v'⟩ := p
    rw [List.map_cons] at h
    simp only [List.mem_cons, not_or] at h
    rw [alookup_cons, if_neg h.1, ih h.2]

theorem mem_keys_of_alookup_some {α : Type} {l : List (Nat × α)} {k : Nat} {v : α}
    (h : alookup l k = some v) : k ∈ l.map Prod.fst := by
  by_contra hk
  rw [alookup_eq_none_of_not_mem_keys hk] at h
  exact Option.noConfusion h

theorem alookup_of_mem_nodup {α : Type} {l : List (Nat × α)} {p : Nat × α}
    (hn : (l.map Prod.fst).Nodup) (hp : p ∈ l) : alookup l p.1 = some p.2 := by
  induction l with
  | nil => simp at hp
  | cons q rest ih =>
    obtain ⟨k', v'⟩ := q
    rw [List.map_cons, List.nodup_cons] at hn
    rcases List.mem_cons.mp hp with h | h
    · subst h
      simp [alookup]
    · have hne : p.1 ≠ k' := by
        intro he
        have hm : p.1 ∈ rest.map Prod.fst := List.mem_map_of_mem Prod.fst h
        rw [he] at hm
        exact hn.1 hm
      rw [alookup_cons, if_neg hne]
      exact ih hn.2 h

theorem aerase_lookup {α : Type} (l : List (Nat × α)) (k j : Nat) :
    alookup (aerase l k) j = if j = k then none else alookup l j := by
  induction l with
  | nil => simp [aerase]
  | cons p rest ih =>
    obtain ⟨k', v'⟩ := p
    by_cases hk : k' = k
    · subst hk
      have he : aerase ((k', v') :: rest) k' = aerase rest k' := by
        simp [aerase, List.filter_cons]
      rw [he, ih]
      by_cases hj : j = k' <;> simp [hj]
    · have he : aerase ((k', v') :: rest) k = (k', v') :: aerase rest k := by
        simp [aerase, List.filter_cons, hk]
      rw [he]
      by_cases hj : j = k'
      · subst hj
        have hjk : j ≠ k := fun h => hk (h ▸ rfl)
        simp [alookup, hjk]
      · simp [alookup, hj, ih]

theorem aerase_keys_sublist {α : Type} (l : List (Nat × α)) (k : Nat) :
    ((aerase l k).map Prod.fst).Sublist (l.map Prod.fst) :=
  List.Sublist.map Prod.fst (List.filter_sublist l)

theorem mem_aerase {α : Type} {l : List (Nat × α)} {k : Nat} {p : Nat × α} :
    p ∈ aerase l k ↔ p ∈ l ∧ p.1 ≠ k := by
  constructor
  · intro h
    have := List.mem_filter.mp h
    exact ⟨this.1, by simpa using this.2⟩
  · intro h
    exact List.mem_filter.mpr ⟨h.1, by simpa using h.2⟩

theorem areplace_lookup {α : Type} (l : List (Nat × α)) (k0 : Nat) (b : α) (j : Nat) :
    alookup (areplace l k0 b) j =
      if j = k0 then (alookup l j).map (fun _ => b) else alookup l j := by
  induction l with
  | nil => simp [areplace]
  | cons p rest ih =>
    obtain ⟨k', v'⟩ := p
    show alookup ((k', if k' = k0 then b else v') :: areplace rest k0 b) j = _
    by_cases hj : j = k'
    · subst hj
      by_cases hk : j = k0 <;> simp [alookup, hk]
    · by_cases hk : j = k0
      · subst hk
        simp [alookup, hj, ih]
      · simp [alookup, hj, hk, ih]

theorem areplace_keys {α : Type} (l : List (Nat × α)) (k0 : Nat) (b : α) :
    (areplace l k0 b).map Prod.fst = l.map Prod.fst := by
  simp [areplace, List.map_map]

theorem mem_areplace {α : Type} {l : List (Nat × α)} {k0 : Nat} {b : α} {p : Nat × α}
    (hp : p ∈ areplace l k0 b) : (p.1 = k0 ∧ p.2 = b) ∨ (p ∈ l ∧ p.1 ≠ k0) := by
  obtain ⟨q, hq, he⟩ := List.mem_map.mp hp
  by_cases h : q.1 = k0
  · left
    rw [← he]
    simp [h]
  · right
    rw [← he]
    simp [h]
    exact hq

/-! ## The Multiverse (src/chain-impl-mockchain/src/multiverse.rs)

A snapshot (`type State = crate::ledger::Ledger`) is opaque to the store
beyond its `chain_length()`; we model it as a chain length together with an
abstract payload so that distinct snapshots of equal length exist. -/

structure State where
  chainLength : Nat
  payload : Nat
deriving DecidableEq, Repr

/-- `const SUFFIX_TO_KEEP: u32 = 50`. -/
def SUFFIX_TO_KEEP : Nat := 50

/-- `Multiverse { states_by_hash, states_by_chain_length, roots }`.  The
`roots` field is the `Roots` table behind the `Arc<RwLock<..>>`; each value
records how many `GCRoot` objects currently exist for the block id. -/
structure Multiverse where
  states_by_hash : List (Nat × State)
  states_by_chain_length : List (Nat × List Nat)
  roots : List (Nat × Nat)
deriving DecidableEq, Repr

/-- `Multiverse::new`. -/
def Multiverse.new : Multiverse := ⟨[], [], []⟩

/-- `GCRoot::new`: `*roots.roots.entry(hash).or_insert(0) += 1`. -/
def rootsIncr : List (Nat × Nat) → Nat → List (Nat × Nat)
  | [], k => [(k, 1)]
  | (k', n) :: rest, k =>
    if k = k' then (k', n + 1) :: rest else (k', n) :: rootsIncr rest k

/-- `impl Drop for GCRoot`: decrement the entry, removing it when it
reaches zero; an absent entry is `unreachable!()` (modelled as `none`). -/
def rootsDecr : List (Nat × Nat) → Nat → Option (List (Nat × Nat))
  | [], _ => none
  | (k', n) :: rest, k =>
    if k = k' then some (if n > 1 then (k', n - 1) :: rest else rest)
    else (rootsDecr rest k).map (fun r => (k', n) :: r)

/-- `self.states_by_hash.entry(k).or_insert(st)`: keep the existing
snapshot if the id is already stored (first-write-wins). -/
def hashOrInsert : List (Nat × State) → Nat → State → List (Nat × State)
  | [], k, st => [(k, st)]
  | (k', st') :: rest, k, st =>
    if k = k' then (k', st') :: rest else (k', st') :: hashOrInsert rest k st

/-- `self.states_by_chain_length.entry(cl).or_insert(HashSet::new()).insert(k)`:
insert `k` into the bucket for chain length `cl`, creating the bucket at its
sorted position (mirroring `BTreeMap` key order) if absent. -/
def bucketsInsert : List (Nat × List Nat) → Nat → Nat → List (Nat × List Nat)
  | [], cl, k => [(cl, [k])]
  | (cl', b) :: rest, cl, k =>
    if cl < cl' then (cl, [k]) :: (cl', b) :: rest
    else if cl = cl' then (cl', if k ∈ b then b else k :: b) :: rest
    else (cl', b) :: bucketsInsert rest cl k

/-- `Multiverse::add`: index the snapshot by chain length and by id, then
create a `GCRoot` pinning it (which bumps the pin count). -/
def Multiverse.add (m : Multiverse) (k : Nat) (st : State) : Multiverse :=
  { states_by_hash := hashOrInsert m.states_by_hash k st,
    states_by_chain_length := bucketsInsert m.states_by_chain_length st.chainLength k,
    roots := rootsIncr m.roots k }

/-- `Multiverse::get`. -/
def Multiverse.get (m : Multiverse) (k : Nat) : Option State :=
  alookup m.states_by_hash k

/-- `Multiverse::delete`: `states_by_hash.remove(&k).unwrap()`, then remove
`k` from its chain-length bucket (`unreachable!()` if the bucket is gone,
`assert!(removed)`), pruning the bucket when it empties.  `none` models the
panicking paths. -/
def Multiverse.delete (m : Multiverse) (k : Nat) : Option Multiverse :=
  match alookup m.states_by_hash k with
  | none => none
  | some st =>
    match alookup m.states_by_chain_length st.chainLength with
    | none => none
    | some bucket =>
      if k ∈ bucket then
        let b := bucket.filter (fun x => decide (x ≠ k))
        some { states_by_hash := aerase m.states_by_hash k,
               states_by_chain_length :=
                 if b = [] then aerase m.states_by_chain_length st.chainLength
                 else areplace m.states_by_chain_length st.chainLength b,
               roots := m.roots }
      else none

/-- The marking loop of `Multiverse::gc`: walk the chain-length buckets in
ascending key order with the running `to_keep` threshold, collecting the
unpinned members of every bucket that falls below the threshold; stop at
the first bucket within `SUFFIX_TO_KEEP` of the longest chain. -/
def gcMark (roots : List (Nat × Nat)) (longest : Nat) :
    List (Nat × List Nat) → Nat → List Nat
  | [], _ => []
  | (cl, bucket) :: rest, to_keep =>
    if longest ≤ cl + SUFFIX_TO_KEEP then []
    else if to_keep ≤ cl then gcMark roots longest rest (cl + (longest - cl) / 2)
    else bucket.filter (fun k => (alookup roots k).isNone) ++ gcMark roots longest rest to_keep

/-- The garbage list computed by `Multiverse::gc` (empty when the store is
empty, but in that case `gc` itself panics on the `unwrap`). -/
def gcGarbage (m : Multiverse) : List Nat :=
  match m.states_by_chain_length.getLast? with
  | none => []
  | some p => gcMark m.roots p.1 m.states_by_chain_length 0

/-- `for k in garbage { self.delete(&k); }` with panic propagation. -/
def deleteAll : List Nat → Multiverse → Option Multiverse
  | [], m => some m
  | k :: rest, m =>
    match m.delete k with
    | none => none
    | some m1 => deleteAll rest m1

/-- `Multiverse::gc`.  `self.states_by_chain_length.iter().next_back().unwrap()`
panics on an empty store (`none`); otherwise mark garbage and delete it. -/
def Multiverse.gc (m : Multiverse) : Option Multiverse :=
  match m.states_by_chain_length.getLast? with
  | none => none
  | some p => deleteAll (gcMark m.roots p.1 m.states_by_chain_length 0) m

/-- `Multiverse::nr_states`. -/
def Multiverse.nr_states (m : Multiverse) : Nat :=
  m.states_by_hash.length

/-- A block id is pinned when the `Roots` table has an entry for it (the
condition `roots.roots.contains_key(&k)` that `gc` consults). -/
def Multiverse.pinned (m : Multiverse) (k : Nat) : Prop :=
  (alookup m.roots k).isSome

instance (m : Multiverse) (k : Nat) : Decidable (m.pinned k) := by
  unfold Multiverse.pinned
  infer_instance

/-- The claimed consistency between the chain-length index and the snapshot
mapping: every bucket member is a stored id whose snapshot has exactly that
chain length, and every stored id occurs in the bucket of its chain length. -/
def IndexConsistent (m : Multiverse) : Prop :=
  (∀ p ∈ m.states_by_chain_length, ∀ k ∈ p.2,
      (alookup m.states_by_hash k).map State.chainLength = some p.1)
  ∧ (∀ q ∈ m.states_by_hash,
      q.1 ∈ (alookup m.states_by_chain_length q.2.chainLength).getD [])

/-- Full internal invariant of a well-formed store: the `BTreeMap` key list
is strictly ascending, key lists are duplicate-free, buckets are non-empty
duplicate-free sets, and the two indices agree (`IndexConsistent`). -/
def Consistent (m : Multiverse) : Prop :=
  List.Pairwise (· < ·) (m.states_by_chain_length.map Prod.fst)
  ∧ (m.states_by_hash.map Prod.fst).Nodup
  ∧ (∀ p ∈ m.states_by_chain_length, p.2 ≠ [] ∧ p.2.Nodup)
  ∧ IndexConsistent m

instance (m : Multiverse) : Decidable (IndexConsistent m) := by
  unfold IndexConsistent
  infer_instance

instance (m : Multiverse) : Decidable (Consistent m) := by
  unfold Consistent
  infer_instance

/-- Bucket membership in the chain-length index (an absent bucket has no
members). -/
def Multiverse.inBucket (m : Multiverse) (cl j : Nat) : Prop :=
  j ∈ (alookup m.states_by_chain_length cl).getD []

instance (m : Multiverse) (cl j : Nat) : Decidable (m.inBucket cl j) := by
  unfold Multiverse.inBucket
  infer_instance

/-! ### Pin-count table (`Roots`) lemmas -/

theorem rootsIncr_of_absent {r : List (Nat × Nat)} {k : Nat}
    (h : alookup r k = none) : rootsIncr r k = r ++ [(k, 1)] := by
  induction r with
  | nil => rfl
  | cons p rest ih =>
    obtain ⟨k', n⟩ := p
    rw [alookup_cons] at h
    by_cases hk : k = k'
    · simp [hk] at h
    · rw [if_neg hk] at h
      simp [rootsIncr, hk, ih h]

theorem rootsIncr_of_absent_entry {r : List (Nat × Nat)} {k : Nat} (n : Nat)
    (h : alookup r k = none) : rootsIncr (r ++ [(k, n)]) k = r ++ [(k, n + 1)] := by
  induction r with
  | nil => simp [rootsIncr]
  | cons p rest ih =>
    obtain ⟨k', n'⟩ := p
    rw [alookup_cons] at h
    by_cases hk : k = k'
    · simp [hk] at h
    · rw [if_neg hk] at h
      simp [rootsIncr, hk, ih h]

theorem rootsDecr_of_absent_entry {r : List (Nat × Nat)} {k : Nat} (n : Nat)
    (h : alookup r k = none) :
    rootsDecr (r ++ [(k, n)]) k = some (if n > 1 then r ++ [(k, n - 1)] else r) := by
  induction r with
  | nil =>
    by_cases hn : n > 1 <;> simp [rootsDecr, hn]
  | cons p rest ih =>
    obtain ⟨k', n'⟩ := p
    rw [alookup_cons] at h
    by_cases hk : k = k'
    · simp [hk] at h
    · rw [if_neg hk] at h
      by_cases hn : n > 1 <;> simp [rootsDecr, hk, ih h, hn]

theorem alookup_append_absent {α : Type} {r : List (Nat × α)} {k : Nat} {v : α}
    (h : alookup r k = none) : alookup (r ++ [(k, v)]) k = some v := by
  induction r with
  | nil => simp [alookup]
  | cons p rest ih =>
    obtain ⟨k', v'⟩ := p
    rw [alookup_cons] at h
    by_cases hk : k = k'
    · simp [hk] at h
    · rw [if_neg hk] at h
      simp [alookup, hk, ih h]

theorem alookup_append_other {α : Type} {r : List (Nat × α)} {k : Nat} (v : α) {j : Nat}
    (h : j ≠ k) : alookup (r ++ [(k, v)]) j = alookup r j := by
  induction r with
  | nil => simp [alookup, h]
  | cons p rest ih =>
    obtain ⟨k', v'⟩ := p
    by_cases hj : j = k' <;> simp [alookup, hj, ih]

/-! ### `states_by_hash` insertion (`entry().or_insert`) lemmas -/

theorem hashOrInsert_of_present {l : List (Nat × State)} {k : Nat} {st' : State} (st : State)
    (h : alookup l k = some st') : hashOrInsert l k st = l := by
  induction l with
  | nil => simp at h
  | cons p rest ih =>
    obtain ⟨k', v'⟩ := p
    rw [alookup_cons] at h
    by_cases hk : k = k'
    · simp [hashOrInsert, hk]
    · rw [if_neg hk] at h
      simp [hashOrInsert, hk, ih h]

theorem hashOrInsert_of_absent {l : List (Nat × State)} {k : Nat} (st : State)
    (h : alookup l k = none) : hashOrInsert l k st = l ++ [(k, st)] := by
  induction l with
  | nil => rfl
  | cons p rest ih =>
    obtain ⟨k', v'⟩ := p
    rw [alookup_cons] at h
    by_cases hk : k = k'
    · simp [hk] at h
    · rw [if_neg hk] at h
      simp [hashOrInsert, hk, ih h]

theorem hashOrInsert_lookup (l : List (Nat × State)) (k : Nat) (st : State) (j : Nat) :
    alookup (hashOrInsert l k st) j =
      if j = k then some ((alookup l k).getD st) else alookup l j := by
  cases h : alookup l k with
  | none =>
    rw [hashOrInsert_of_absent st h]
    by_cases hj : j = k
    · subst hj
      simp [alookup_append_absent h, h]
    · simp [alookup_append_other st hj, hj]
  | some st' =>
    rw [hashOrInsert_of_present st h]
    by_cases hj : j = k
    · subst hj
      simp [h]
    · simp [hj]

theorem alookup_isSome_of_mem_keys {α : Type} {l : List (Nat × α)} {k : Nat}
    (h : k ∈ l.map Prod.fst) : (alookup l k).isSome := by
  induction l with
  | nil => simp at h
  | cons p rest ih =>
    obtain ⟨k', v'⟩ := p
    by_cases hk : k = k'
    · simp [alookup, hk]
    · rw [List.map_cons, List.mem_cons] at h
      rcases h with h | h
      · exact absurd h hk
      · simp [alookup, hk]
        exact ih h

theorem hashOrInsert_keys_nodup {l : List (Nat × State)} {k : Nat} (st : State)
    (h : (l.map Prod.fst).Nodup) : ((hashOrInsert l k st).map Prod.fst).Nodup := by
  cases hl : alookup l k with
  | none =>
    rw [hashOrInsert_of_absent st hl, List.map_append]
    apply List.Nodup.append h (by simp)
    intro x hx hx'
    simp only [List.map_cons, List.map_nil, List.mem_singleton] at hx'
    subst hx'
    have hs := alookup_isSome_of_mem_keys hx
    rw [hl] at hs
    simp at hs
  | some st' =>
    rw [hashOrInsert_of_present st hl]
    exact h

theorem mem_hashOrInsert {l : List (Nat × State)} {k : Nat} {st : State} {q : Nat × State}
    (hq : q ∈ hashOrInsert l k st) : q ∈ l ∨ (q = (k, st) ∧ alookup l k = none) := by
  cases hl : alookup l k with
  | none =>
    rw [hashOrInsert_of_absent st hl] at hq
    rcases List.mem_append.mp hq with h | h
    · exact Or.inl h
    · simp at h
      exact Or.inr ⟨by simp [h], rfl⟩
  | some st' =>
    rw [hashOrInsert_of_present st hl] at hq
    exact Or.inl hq

/-! ### Chain-length index insertion lemmas -/

/-- The bucket stored at `cl` after `bucketsInsert l cl k`. -/
def bucketAfter (l : List (Nat × List Nat)) (cl k : Nat) : List Nat :=
  match alookup l cl with
  | some b => if k ∈ b then b else k :: b
  | none => [k]

theorem bucketsInsert_keys_mem {l : List (Nat × List Nat)} {cl k x : Nat}
    (h : x ∈ (bucketsInsert l cl k).map Prod.fst) : x ∈ l.map Prod.fst ∨ x = cl := by
  induction l with
  | nil =>
    simp [bucketsInsert] at h
    exact Or.inr h
  | cons p rest ih =>
    obtain ⟨cl', b⟩ := p
    by_cases h1 : cl < cl'
    · simp only [bucketsInsert, if_pos h1, List.map_cons, List.mem_cons] at h
      rcases h with h | h | h
      · exact Or.inr h
      · exact Or.inl (by rw [List.map_cons]; exact List.mem_cons.mpr (Or.inl h))
      · exact Or.inl (by rw [List.map_cons]; exact List.mem_cons.mpr (Or.inr h))
    · by_cases h2 : cl = cl'
      · simp only [bucketsInsert, if_neg h1, if_pos h2, List.map_cons, List.mem_cons] at h
        rcases h with h | h
        · exact Or.inl (by rw [List.map_cons]; exact List.mem_cons.mpr (Or.inl h))
        · exact Or.inl (by rw [List.map_cons]; exact List.mem_cons.mpr (Or.inr h))
      · simp only [bucketsInsert, if_neg h1, if_neg h2, List.map_cons, List.mem_cons] at h
        rcases h with h | h
        · exact Or.inl (by rw [List.map_cons]; exact List.mem_cons.mpr (Or.inl h))
        · rcases ih h with h' | h'
          · exact Or.inl (by rw [List.map_cons]; exact List.mem_cons.mpr (Or.inr h'))
          · exact Or.inr h'

theorem bucketsInsert_pairwise {l : List (Nat × List Nat)} {cl k : Nat}
    (hp : List.Pairwise (· < ·) (l.map Prod.fst)) :
    List.Pairwise (· < ·) ((bucketsInsert l cl k).map Prod.fst) := by
  induction l with
  | nil => simp [bucketsInsert]
  | cons p rest ih =>
    obtain ⟨cl', b⟩ := p
    rw [List.map_cons, List.pairwise_cons] at hp
    by_cases h1 : cl < cl'
    · simp only [bucketsInsert, if_pos h1, List.map_cons, List.pairwise_cons]
      refine ⟨?_, hp.1, hp.2⟩
      intro x hx
      rcases List.mem_cons.mp hx with h | h
      · exact h ▸ h1
      · exact Nat.lt_trans h1 (hp.1 x h)
    · by_cases h2 : cl = cl'
      · simp only [bucketsInsert, if_neg h1, if_pos h2, List.map_cons, List.pairwise_cons]
        exact hp
      · have hgt : cl' < cl := by omega
        simp only [bucketsInsert, if_neg h1, if_neg h2, List.map_cons, List.pairwise_cons]
        refine ⟨?_, ih hp.2⟩
        intro x hx
        rcases bucketsInsert_keys_mem hx with h | h
        · exact hp.1 x h
        · exact h ▸ hgt

theorem bucketsInsert_lookup {l : List (Nat × List Nat)} {cl k : Nat}
    (hp : List.Pairwise (· < ·) (l.map Prod.fst)) (cl' : Nat) :
    alookup (bucketsInsert l cl k) cl' =
      if cl' = cl then some (bucketAfter l cl k) else alookup l cl' := by
  induction l with
  | nil =>
    by_cases hc : cl' = cl <;> simp [bucketsInsert, bucketAfter, alookup, hc]
  | cons p rest ih =>
    obtain ⟨cl0, b⟩ := p
    rw [List.map_cons, List.pairwise_cons] at hp
    by_cases h1 : cl < cl0
    · have habs : alookup ((cl0, b) :: rest) cl = none := by
        apply alookup_eq_none_of_not_mem_keys
        intro hm
        rw [List.map_cons, List.mem_cons] at hm
        rcases hm with h | h
        · omega
        · exact absurd (hp.1 cl h) (by omega)
      have hb : bucketAfter ((cl0, b) :: rest) cl k = [k] := by
        unfold bucketAfter
        rw [habs]
      simp only [bucketsInsert, if_pos h1]
      by_cases hc : cl' = cl
      · subst hc
        simp [alookup, hb]
      · simp [alookup, hc]
    · by_cases h2 : cl = cl0
      · subst h2
        have hb : bucketAfter ((cl, b) :: rest) cl k = if k ∈ b then b else k :: b := by
          unfold bucketAfter
          simp [alookup]
        simp only [bucketsInsert, if_neg h1, if_pos rfl]
        by_cases hc : cl' = cl
        · subst hc
          simp [alookup, hb]
        · simp [alookup, hc]
      · have hba : bucketAfter ((cl0, b) :: rest) cl k = bucketAfter rest cl k := by
          unfold bucketAfter
          rw [alookup_cons, if_neg h2]
        simp only [bucketsInsert, if_neg h1, if_neg h2]
        by_cases hc : cl' = cl0
        · subst hc
          have hne : ¬ cl' = cl := fun h => h2 (h.symm ▸ rfl)
          simp [alookup, hne, hba]
        · simp [alookup, hc, ih hp.2, hba]

/-! ### Consistency helpers and `delete` characterization -/

theorem consistent_hash_to_bucket {m : Multiverse} {j : Nat} {st : State}
    (hc : Consistent m) (h : alookup m.states_by_hash j = some st) :
    ∃ b, alookup m.states_by_chain_length st.chainLength = some b ∧ j ∈ b := by
  have h5 := hc.2.2.2.2 (j, st) (alookup_mem h)
  cases hb : alookup m.states_by_chain_length st.chainLength with
  | none =>
    rw [hb] at h5
    simp at h5
  | some b =>
    rw [hb] at h5
    exact ⟨b, rfl, by simpa using h5⟩

theorem consistent_bucket_to_hash {m : Multiverse} {cl j : Nat} {b : List Nat}
    (hc : Consistent m) (hb : alookup m.states_by_chain_length cl = some b) (hj : j ∈ b) :
    (alookup m.states_by_hash j).map State.chainLength = some cl :=
  hc.2.2.2.1 (cl, b) (alookup_mem hb) j hj

/-- An id sitting in a bucket other than the one for `st.chainLength` cannot
be the id stored with snapshot `st`. -/
theorem consistent_bucket_ne {m : Multiverse} {k : Nat} {st : State} {cl j : Nat}
    (hc : Consistent m) (hk : alookup m.states_by_hash k = some st)
    (hcl : cl ≠ st.chainLength) (hj : j ∈ (alookup m.states_by_chain_length cl).getD []) :
    j ≠ k := by
  intro he
  subst he
  cases hbc : alookup m.states_by_chain_length cl with
  | none =>
    rw [hbc] at hj
    simp at hj
  | some bc =>
    rw [hbc] at hj
    simp at hj
    have hmap := consistent_bucket_to_hash hc hbc hj
    rw [hk] at hmap
    simp at hmap
    exact hcl hmap.symm

theorem pairwise_lt_nodup {ks : List Nat} (hp : List.Pairwise (· < ·) ks) : ks.Nodup :=
  hp.imp Nat.ne_of_lt

theorem delete_spec {m : Multiverse} {k : Nat} {st : State}
    (hc : Consistent m) (hk : alookup m.states_by_hash k = some st) :
    ∃ m', m.delete k = some m'
      ∧ Consistent m'
      ∧ (∀ j, alookup m'.states_by_hash j =
            if j = k then none else alookup m.states_by_hash j)
      ∧ (∀ cl j, m'.inBucket cl j ↔ m.inBucket cl j ∧ j ≠ k)
      ∧ m'.roots = m.roots := by
  obtain ⟨b, hb, hkb⟩ := consistent_hash_to_bucket hc hk
  set bf := b.filter (fun x => decide (x ≠ k)) with hbf
  set B := (if bf = [] then aerase m.states_by_chain_length st.chainLength
            else areplace m.states_by_chain_length st.chainLength bf) with hB
  have hmem_bf : ∀ j, j ∈ bf ↔ j ∈ b ∧ j ≠ k := by
    intro j
    rw [hbf, List.mem_filter]
    simp
  have hlook : ∀ cl, alookup B cl =
      if cl = st.chainLength then (if bf = [] then none else some bf)
      else alookup m.states_by_chain_length cl := by
    intro cl
    rw [hB]
    by_cases he : bf = []
    · rw [if_pos he, aerase_lookup]
      by_cases hcl : cl = st.chainLength
      · rw [if_pos hcl, if_pos hcl, if_pos he]
      · rw [if_neg hcl, if_neg hcl]
    · rw [if_neg he, areplace_lookup]
      by_cases hcl : cl = st.chainLength
      · rw [if_pos hcl, if_pos hcl, if_neg he, hcl, hb]
        rfl
      · rw [if_neg hcl, if_neg hcl]
  have hchar : ∀ cl j, (j ∈ (alookup B cl).getD []) ↔
      (j ∈ (alookup m.states_by_chain_length cl).getD [] ∧ j ≠ k) := by
    intro cl j
    rw [hlook]
    by_cases hcl : cl = st.chainLength
    · rw [if_pos hcl, hcl, hb]
      by_cases he : bf = []
      · rw [if_pos he]
        constructor
        · intro h
          simp at h
        · rintro ⟨hj, hjk⟩
          have hin : j ∈ bf := (hmem_bf j).mpr ⟨by simpa using hj, hjk⟩
          rw [he] at hin
          simp at hin
      · rw [if_neg he]
        simp only [Option.getD_some]
        rw [hmem_bf]
    · rw [if_neg hcl]
      constructor
      · intro h
        exact ⟨h, consistent_bucket_ne hc hk hcl h⟩
      · exact And.left
  have hpairB : List.Pairwise (· < ·) (B.map Prod.fst) := by
    rw [hB]
    by_cases he : bf = []
    · rw [if_pos he]
      exact List.Pairwise.sublist (aerase_keys_sublist _ _) hc.1
    · rw [if_neg he, areplace_keys]
      exact hc.1
  have hcons : Consistent ⟨aerase m.states_by_hash k, B, m.roots⟩ := by
    refine ⟨hpairB, List.Nodup.sublist (aerase_keys_sublist _ _) hc.2.1, ?_, ?_, ?_⟩
    · intro p hp
      rw [hB] at hp
      by_cases he : bf = []
      · rw [if_pos he] at hp
        exact hc.2.2.1 p (mem_aerase.mp hp).1
      · rw [if_neg he] at hp
        rcases mem_areplace hp with ⟨_, h2⟩ | ⟨h1, _⟩
        · constructor
          · rw [h2]
            exact he
          · rw [h2, hbf]
            exact List.Nodup.filter _ ((hc.2.2.1 (st.chainLength, b) (alookup_mem hb)).2)
        · exact hc.2.2.1 p h1
    · intro p hp j hj
      have hpl : alookup B p.1 = some p.2 :=
        alookup_of_mem_nodup (pairwise_lt_nodup hpairB) hp
      have hjB : j ∈ (alookup B p.1).getD [] := by
        rw [hpl]
        simpa using hj
      obtain ⟨hjold, hjk⟩ := (hchar p.1 j).mp hjB
      cases hbc : alookup m.states_by_chain_length p.1 with
      | none =>
        rw [hbc] at hjold
        simp at hjold
      | some bc =>
        rw [hbc] at hjold
        simp only [Option.getD_some] at hjold
        have hmap := consistent_bucket_to_hash hc hbc hjold
        show (alookup (aerase m.states_by_hash k) j).map State.chainLength = some p.1
        rw [aerase_lookup, if_neg hjk]
        exact hmap
    · intro q hq
      obtain ⟨hql, hqk⟩ := mem_aerase.mp hq
      have hold := hc.2.2.2.2 q hql
      show q.1 ∈ (alookup B q.2.chainLength).getD []
      exact (hchar q.2.chainLength q.1).mpr ⟨hold, hqk⟩
  refine ⟨⟨aerase m.states_by_hash k, B, m.roots⟩, ?_, hcons,
    fun j => aerase_lookup m.states_by_hash k j, fun cl j => hchar cl j, rfl⟩
  rw [hB, hbf]
  simp [Multiverse.delete, hk, hb, hkb]

theorem deleteAll_spec :
    ∀ (g : List Nat) (m : Multiverse), Consistent m → g.Nodup →
      (∀ k ∈ g, (alookup m.states_by_hash k).isSome) →
      ∃ m', deleteAll g m = some m'
        ∧ Consistent m'
        ∧ (∀ j, alookup m'.states_by_hash j =
              if j ∈ g then none else alookup m.states_by_hash j)
        ∧ (∀ cl j, m'.inBucket cl j ↔ m.inBucket cl j ∧ j ∉ g)
        ∧ m'.roots = m.roots := by
  intro g
  induction g with
  | nil =>
    intro m hc _ _
    exact ⟨m, rfl, hc, by simp, by simp, rfl⟩
  | cons k rest ih =>
    intro m hc hnd hpres
    have hks : (alookup m.states_by_hash k).isSome := hpres k (List.mem_cons_self k rest)
    obtain ⟨st, hst⟩ := Option.isSome_iff_exists.mp hks
    obtain ⟨m1, hdel, hc1, hh1, hb1, hr1⟩ := delete_spec hc hst
    rw [List.nodup_cons] at hnd
    have hpres1 : ∀ k' ∈ rest, (alookup m1.states_by_hash k').isSome := by
      intro k' hk'
      have hne : ¬ k' = k := by
        intro he
        rw [he] at hk'
        exact hnd.1 hk'
      rw [hh1 k', if_neg hne]
      exact hpres k' (List.mem_cons_of_mem _ hk')
    obtain ⟨m', hall, hc', hh', hbc', hr'⟩ := ih m1 hc1 hnd.2 hpres1
    refine ⟨m', ?_, hc', ?_, ?_, hr'.trans hr1⟩
    · simp [deleteAll, hdel, hall]
    · intro j
      rw [hh' j]
      by_cases hjr : j ∈ rest
      · simp [hjr]
      · rw [if_neg hjr, hh1 j]
        by_cases hjk : j = k
        · simp [hjk]
        · simp [hjk, hjr]
    · intro cl j
      rw [hbc' cl j, hb1 cl j]
      constructor
      · rintro ⟨⟨h1, h2⟩, h3⟩
        refine ⟨h1, ?_⟩
        rw [List.mem_cons, not_or]
        exact ⟨h2, h3⟩
      · rintro ⟨h1, h2⟩
        rw [List.mem_cons, not_or] at h2
        exact ⟨⟨h1, h2.1⟩, h2.2⟩

/-! ### Properties of the `gc` marking loop -/

theorem gcMark_sound {roots : List (Nat × Nat)} {longest : Nat} :
    ∀ {l : List (Nat × List Nat)} {t k : Nat}, k ∈ gcMark roots longest l t →
      alookup roots k = none ∧ ∃ p ∈ l, k ∈ p.2 := by
  intro l
  induction l with
  | nil =>
    intro t k h
    simp [gcMark] at h
  | cons p rest ih =>
    intro t k h
    obtain ⟨cl, bucket⟩ := p
    by_cases h1 : longest ≤ cl + SUFFIX_TO_KEEP
    · simp only [gcMark, if_pos h1] at h
      simp at h
    · by_cases h2 : t ≤ cl
      · simp only [gcMark, if_neg h1, if_pos h2] at h
        obtain ⟨hr, q, hq, hkq⟩ := ih h
        exact ⟨hr, q, List.mem_cons_of_mem _ hq, hkq⟩
      · simp only [gcMark, if_neg h1, if_neg h2] at h
        rcases List.mem_append.mp h with h | h
        · have hf := List.mem_filter.mp h
          refine ⟨?_, (cl, bucket), List.mem_cons_self _ _, hf.1⟩
          have := hf.2
          simpa [Option.isNone_iff_eq_none] using this
        · obtain ⟨hr, q, hq, hkq⟩ := ih h
          exact ⟨hr, q, List.mem_cons_of_mem _ hq, hkq⟩

theorem gcMark_nodup {roots : List (Nat × Nat)} {longest : Nat} {hash : List (Nat × State)} :
    ∀ {l : List (Nat × List Nat)} {t : Nat},
      List.Pairwise (· < ·) (l.map Prod.fst) →
      (∀ p ∈ l, p.2.Nodup) →
      (∀ p ∈ l, ∀ k ∈ p.2, (alookup hash k).map State.chainLength = some p.1) →
      (gcMark roots longest l t).Nodup := by
  intro l
  induction l with
  | nil =>
    intro t _ _ _
    simp [gcMark]
  | cons p rest ih =>
    intro t hp hnd hmap
    obtain ⟨cl, bucket⟩ := p
    rw [List.map_cons, List.pairwise_cons] at hp
    have hndr : ∀ q ∈ rest, q.2.Nodup := fun q hq => hnd q (List.mem_cons_of_mem _ hq)
    have hmapr : ∀ q ∈ rest, ∀ k ∈ q.2, (alookup hash k).map State.chainLength = some q.1 :=
      fun q hq => hmap q (List.mem_cons_of_mem _ hq)
    by_cases h1 : longest ≤ cl + SUFFIX_TO_KEEP
    · simp [gcMark, if_pos h1]
    · by_cases h2 : t ≤ cl
      · simp only [gcMark, if_neg h1, if_pos h2]
        exact ih hp.2 hndr hmapr
      · simp only [gcMark, if_neg h1, if_neg h2]
        apply List.Nodup.append
        · exact List.Nodup.filter _ (hnd (cl, bucket) (List.mem_cons_self _ _))
        · exact ih hp.2 hndr hmapr
        · intro x hx hx'
          have hxb : x ∈ bucket := (List.mem_filter.mp hx).1
          obtain ⟨_, q, hq, hxq⟩ := gcMark_sound hx'
          have e1 := hmap (cl, bucket) (List.mem_cons_self _ _) x hxb
          have e2 := hmapr q hq x hxq
          rw [e1] at e2
          have hcl : cl = q.1 := Option.some.inj e2
          have hlt := hp.1 q.1 (List.mem_map_of_mem Prod.fst hq)
          omega

/-- Everything `gc` marks is an unpinned member of some bucket. -/
theorem gcGarbage_sound {m : Multiverse} {k : Nat} (h : k ∈ gcGarbage m) :
    alookup m.roots k = none ∧ ∃ p ∈ m.states_by_chain_length, k ∈ p.2 := by
  unfold gcGarbage at h
  cases hl : m.states_by_chain_length.getLast? with
  | none =>
    rw [hl] at h
    simp at h
  | some p =>
    rw [hl] at h
    exact gcMark_sound h

/-- Full characterization of a successful `gc` pass on a consistent,
non-empty store: it succeeds, preserves consistency, leaves the pin table
alone, and removes exactly the marked identities from both indices. -/
theorem gc_spec {m : Multiverse} (hc : Consistent m)
    (hne : m.states_by_chain_length ≠ []) :
    ∃ m', m.gc = some m'
      ∧ Consistent m'
      ∧ (∀ j, alookup m'.states_by_hash j =
            if j ∈ gcGarbage m then none else alookup m.states_by_hash j)
      ∧ (∀ cl j, m'.inBucket cl j ↔ m.inBucket cl j ∧ j ∉ gcGarbage m)
      ∧ m'.roots = m.roots := by
  have hp : m.states_by_chain_length.getLast? =
      some (m.states_by_chain_length.getLast hne) :=
    List.getLast?_eq_getLast_of_ne_nil hne
  have hg : gcGarbage m =
      gcMark m.roots (m.states_by_chain_length.getLast hne).1
        m.states_by_chain_length 0 := by
    unfold gcGarbage
    rw [hp]
  have hnd : (gcGarbage m).Nodup := by
    rw [hg]
    exact gcMark_nodup hc.1 (fun p hp' => (hc.2.2.1 p hp').2) hc.2.2.2.1
  have hpres : ∀ k ∈ gcGarbage m, (alookup m.states_by_hash k).isSome := by
    intro k hk
    obtain ⟨_, q, hq, hkq⟩ := gcGarbage_sound hk
    have := hc.2.2.2.1 q hq k hkq
    cases hs : alookup m.states_by_hash k with
    | none =>
      rw [hs] at this
      simp at this
    | some st => rfl
  obtain ⟨m', hall, hc', hh', hbc', hr'⟩ := deleteAll_spec (gcGarbage m) m hc hnd hpres
  refine ⟨m', ?_, hc', hh', hbc', hr'⟩
  show Multiverse.gc m = some m'
  unfold Multiverse.gc
  rw [hp]
  rw [hg] at hall
  exact hall

/-! ### `add` preserves consistency (when chain lengths of re-adds agree) -/

theorem mem_bucketAfter_self (l : List (Nat × List Nat)) (cl k : Nat) :
    k ∈ bucketAfter l cl k := by
  unfold bucketAfter
  cases alookup l cl with
  | none => exact List.mem_singleton_self k
  | some b =>
    by_cases hk : k ∈ b
    · simp [hk]
    · simp [hk]

theorem mem_bucketAfter_of_mem {l : List (Nat × List Nat)} {cl : Nat} {b : List Nat}
    (hl : alookup l cl = some b) {j : Nat} (hj : j ∈ b) (k : Nat) :
    j ∈ bucketAfter l cl k := by
  unfold bucketAfter
  rw [hl]
  by_cases hk : k ∈ b
  · simp [hk, hj]
  · simp [hk]
    exact Or.inr hj

theorem consistent_add {m : Multiverse} {k : Nat} {st : State}
    (hc : Consistent m)
    (hcompat : ∀ st', alookup m.states_by_hash k = some st' →
        st'.chainLength = st.chainLength) :
    Consistent (m.add k st) := by
  have hpairB : List.Pairwise (· < ·)
      ((bucketsInsert m.states_by_chain_length st.chainLength k).map Prod.fst) :=
    bucketsInsert_pairwise hc.1
  refine ⟨hpairB, hashOrInsert_keys_nodup st hc.2.1, ?_, ?_, ?_⟩
  · intro p hp
    have hpl := alookup_of_mem_nodup (pairwise_lt_nodup hpairB) hp
    rw [bucketsInsert_lookup hc.1 p.1] at hpl
    by_cases hcl : p.1 = st.chainLength
    · rw [if_pos hcl] at hpl
      have hp2 : p.2 = bucketAfter m.states_by_chain_length st.chainLength k :=
        (Option.some.inj hpl).symm
      rw [hp2]
      unfold bucketAfter
      cases hbo : alookup m.states_by_chain_length st.chainLength with
      | none => simp
      | some b =>
        have hbprop := hc.2.2.1 (st.chainLength, b) (alookup_mem hbo)
        by_cases hkb : k ∈ b
        · simpa [hkb] using hbprop
        · simp only [hkb, if_false]
          exact ⟨List.cons_ne_nil k b, List.nodup_cons.mpr ⟨hkb, hbprop.2⟩⟩
    · rw [if_neg hcl] at hpl
      exact hc.2.2.1 p (alookup_mem hpl)
  · intro p hp j hj
    have hpl := alookup_of_mem_nodup (pairwise_lt_nodup hpairB) hp
    rw [bucketsInsert_lookup hc.1 p.1] at hpl
    show (alookup (hashOrInsert m.states_by_hash k st) j).map State.chainLength = some p.1
    rw [hashOrInsert_lookup]
    by_cases hcl : p.1 = st.chainLength
    · by_cases hjk : j = k
      · rw [if_pos hjk, hcl]
        cases hs : alookup m.states_by_hash k with
        | none => simp
        | some st' =>
          simp [hcompat st' hs]
      · rw [if_neg hjk]
        rw [if_pos hcl] at hpl
        have hp2 : p.2 = bucketAfter m.states_by_chain_length st.chainLength k :=
          (Option.some.inj hpl).symm
        rw [hp2] at hj
        unfold bucketAfter at hj
        cases hbo : alookup m.states_by_chain_length st.chainLength with
        | none =>
          rw [hbo] at hj
          simp at hj
          exact absurd hj hjk
        | some b =>
          rw [hbo] at hj
          have hjb : j ∈ b := by
            by_cases hkb : k ∈ b
            · simpa [hkb] using hj
            · simp [hkb] at hj
              rcases hj with hj | hj
              · exact absurd hj hjk
              · exact hj
          rw [hcl]
          exact consistent_bucket_to_hash hc hbo hjb
    · rw [if_neg hcl] at hpl
      by_cases hjk : j = k
      · exfalso
        subst hjk
        have hmap := hc.2.2.2.1 p (alookup_mem hpl) j hj
        cases hs : alookup m.states_by_hash j with
        | none =>
          rw [hs] at hmap
          simp at hmap
        | some st' =>
          rw [hs] at hmap
          simp at hmap
          rw [hcompat st' hs] at hmap
          exact hcl hmap.symm
      · rw [if_neg hjk]
        exact hc.2.2.2.1 p (alookup_mem hpl) j hj
  · intro q hq
    rcases mem_hashOrInsert hq with hq' | ⟨hq', habs⟩
    · have hold := hc.2.2.2.2 q hq'
      show q.1 ∈ (alookup (bucketsInsert m.states_by_chain_length st.chainLength k)
          q.2.chainLength).getD []
      rw [bucketsInsert_lookup hc.1]
      by_cases hcl : q.2.chainLength = st.chainLength
      · rw [if_pos hcl]
        rw [hcl] at hold
        cases hbo : alookup m.states_by_chain_length st.chainLength with
        | none =>
          rw [hbo] at hold
          simp at hold
        | some b =>
          rw [hbo] at hold
          simp only [Option.getD_some] at hold
          simpa using mem_bucketAfter_of_mem hbo hold k
      · rw [if_neg hcl]
        exact hold
    · subst hq'
      show k ∈ (alookup (bucketsInsert m.states_by_chain_length st.chainLength k)
          st.chainLength).getD []
      rw [bucketsInsert_lookup hc.1, if_pos rfl]
      simpa using mem_bucketAfter_self m.states_by_chain_length st.chainLength k

/-! ### Reachable stores -/

/-- Stores reachable through the public API: any sequence of `add`
(unrestricted), successful `gc`, and `GCRoot` release (`Drop`). -/
inductive Reachable : Multiverse → Prop
  | new : Reachable Multiverse.new
  | add (m : Multiverse) (k : Nat) (st : State) : Reachable m → Reachable (m.add k st)
  | gc (m m' : Multiverse) : Reachable m → m.gc = some m' → Reachable m'
  | release (m : Multiverse) (k : Nat) (r' : List (Nat × Nat)) :
      Reachable m → rootsDecr m.roots k = some r' → Reachable { m with roots := r' }

/-- Reachability in which a block id that is already stored is only ever
re-added with a snapshot of the same chain length. -/
inductive ReachableSafe : Multiverse → Prop
  | new : ReachableSafe Multiverse.new
  | add (m : Multiverse) (k : Nat) (st : State) :
      ReachableSafe m →
      (∀ st', m.get k = some st' → st'.chainLength = st.chainLength) →
      ReachableSafe (m.add k st)
  | gc (m m' : Multiverse) : ReachableSafe m → m.gc = some m' → ReachableSafe m'
  | release (m : Multiverse) (k : Nat) (r' : List (Nat × Nat)) :
      ReachableSafe m → rootsDecr m.roots k = some r' → ReachableSafe { m with roots := r' }

theorem gc_ne_nil {m m' : Multiverse} (h : m.gc = some m') :
    m.states_by_chain_length ≠ [] := by
  intro he
  unfold Multiverse.gc at h
  rw [he] at h
  simp at h

theorem consistent_new : Consistent Multiverse.new := by
  refine ⟨?_, ?_, ?_, ?_, ?_⟩ <;> simp [Multiverse.new, IndexConsistent]

theorem reachableSafe_consistent : ∀ {m : Multiverse}, ReachableSafe m → Consistent m := by
  intro m h
  induction h with
  | new => exact consistent_new
  | add m k st _ hcompat ih => exact consistent_add ih hcompat
  | gc m m' hr hgc ih =>
    obtain ⟨m'', hgc', hc', _⟩ := gc_spec ih (gc_ne_nil hgc)
    rw [hgc] at hgc'
    have he : m'' = m' := (Option.some.inj hgc').symm
    exact he ▸ hc'
  | release m k r' hr hdec ih => exact ih

/-! ### The specification's statement of the gc algorithm

`specWalk`, `maxChainLength`, `gcSpecMarked` and `gcSpecHash` are phrased
from the specification text of `gc` ("let `L` be the maximum chain length
currently present..."), to be compared with the source-derived `gcMark` /
`gcGarbage` / `Multiverse.gc`. -/

/-- Spec-side marking walk: with `L` the maximum chain length present and
`keep_from` a running threshold, a bucket within `SUFFIX_TO_KEEP` of `L`
stops the walk; a bucket at or above `keep_from` is retained and advances
it to `cl + (L - cl) / 2` (integer division); a bucket below it has every
unpinned member marked. -/
def specWalk (roots : List (Nat × Nat)) (L : Nat) :
    List (Nat × List Nat) → Nat → List Nat
  | [], _ => []
  | (cl, bucket) :: rest, keep_from =>
    if L - cl ≤ SUFFIX_TO_KEEP then []
    else if cl ≥ keep_from then specWalk roots L rest (cl + (L - cl) / 2)
    else bucket.filter (fun k => !(alookup roots k).isSome) ++ specWalk roots L rest keep_from

/-- Spec-side `L`: the maximum chain length present. -/
def maxChainLength (m : Multiverse) : Nat :=
  (m.states_by_chain_length.map Prod.fst).foldr max 0

/-- The identities the spec's algorithm marks for deletion. -/
def gcSpecMarked (m : Multiverse) : List Nat :=
  specWalk m.roots (maxChainLength m) m.states_by_chain_length 0

/-- Spec-side result of deleting every marked identity from the identity
map. -/
def gcSpecHash (m : Multiverse) : List (Nat × State) :=
  m.states_by_hash.filter (fun q => decide (q.1 ∉ gcSpecMarked m))

theorem specWalk_eq_gcMark (roots : List (Nat × Nat)) (L : Nat) :
    ∀ (l : List (Nat × List Nat)) (t : Nat), specWalk roots L l t = gcMark roots L l t := by
  intro l
  induction l with
  | nil =>
    intro t
    rfl
  | cons p rest ih =>
    intro t
    obtain ⟨cl, bucket⟩ := p
    have h1 : (L - cl ≤ SUFFIX_TO_KEEP) ↔ (L ≤ cl + SUFFIX_TO_KEEP) := by omega
    have h3 : (fun k => !(alookup roots k).isSome) = (fun k => (alookup roots k).isNone) := by
      funext k
      cases alookup roots k <;> rfl
    simp only [specWalk, gcMark, ih]
    by_cases hb : L ≤ cl + SUFFIX_TO_KEEP
    · rw [if_pos (h1.mpr hb), if_pos hb]
    · rw [if_neg (fun hh => hb (h1.mp hh)), if_neg hb]
      by_cases ht : t ≤ cl
      · rw [if_pos ht, if_pos ht]
      · rw [if_neg ht, if_neg ht, h3]

theorem le_foldr_max_of_mem : ∀ {ks : List Nat} {a : Nat}, a ∈ ks → a ≤ ks.foldr max 0 := by
  intro ks
  induction ks with
  | nil =>
    intro a h
    simp at h
  | cons b rest ih =>
    intro a h
    rcases List.mem_cons.mp h with h | h
    · subst h
      exact Nat.le_max_left _ _
    · exact Nat.le_trans (ih h) (Nat.le_max_right _ _)

theorem getLast_key_eq_max {l : List (Nat × List Nat)}
    (hp : List.Pairwise (· < ·) (l.map Prod.fst)) (hne : l ≠ []) :
    (l.getLast hne).1 = (l.map Prod.fst).foldr max 0 := by
  induction l with
  | nil => exact absurd rfl hne
  | cons x rest ih =>
    cases rest with
    | nil =>
      simp [List.getLast]
    | cons y rest' =>
      rw [List.map_cons, List.pairwise_cons] at hp
      have hne' : y :: rest' ≠ [] := List.cons_ne_nil y rest'
      rw [List.getLast_cons hne', ih hp.2 hne']
      have hy : y.1 ≤ ((y :: rest').map Prod.fst).foldr max 0 :=
        le_foldr_max_of_mem (by simp)
      have hx : x.1 < y.1 := hp.1 y.1 (by simp)
      have hstep : ((x :: y :: rest').map Prod.fst).foldr max 0
          = max x.1 (((y :: rest').map Prod.fst).foldr max 0) := rfl
      rw [hstep, Nat.max_eq_right (by omega)]

theorem gcSpecMarked_eq_gcGarbage {m : Multiverse}
    (hp : List.Pairwise (· < ·) (m.states_by_chain_length.map Prod.fst))
    (hne : m.states_by_chain_length ≠ []) :
    gcSpecMarked m = gcGarbage m := by
  unfold gcSpecMarked gcGarbage maxChainLength
  rw [List.getLast?_eq_getLast_of_ne_nil hne, specWalk_eq_gcMark,
    ← getLast_key_eq_max hp hne]

theorem afilter_lookup {α : Type} (l : List (Nat × α)) (g : List Nat) (j : Nat) :
    alookup (l.filter (fun p => decide (p.1 ∉ g))) j =
      if j ∈ g then none else alookup l j := by
  induction l with
  | nil => simp
  | cons p rest ih =>
    obtain ⟨k', v'⟩ := p
    by_cases hk : k' ∈ g
    · have he : ((k', v') :: rest).filter (fun p => decide (p.1 ∉ g)) =
          rest.filter (fun p => decide (p.1 ∉ g)) := by
        simp [List.filter_cons, hk]
      rw [he, ih]
      by_cases hj : j = k'
      · subst hj
        simp [hk]
      · simp [alookup, hj]
    · have he : ((k', v') :: rest).filter (fun p => decide (p.1 ∉ g)) =
          (k', v') :: rest.filter (fun p => decide (p.1 ∉ g)) := by
        simp [List.filter_cons, hk]
      rw [he]
      by_cases hj : j = k'
      · subst hj
        simp [alookup, hk]
      · simpa [alookup, hj] using ih

/-! ### Shared helper: a pinned id survives a successful gc pass -/

theorem gc_preserves_pinned {m : Multiverse} {id : Nat} {st : State}
    (hc : Consistent m) (hne : m.states_by_chain_length ≠ [])
    (hpin : (alookup m.roots id).isSome)
    (hid : alookup m.states_by_hash id = some st) :
    ∃ m', m.gc = some m' ∧ alookup m'.states_by_hash id = some st := by
  obtain ⟨m', hgc, _, hh, _, _⟩ := gc_spec hc hne
  refine ⟨m', hgc, ?_⟩
  rw [hh id]
  have hnm : id ∉ gcGarbage m := by
    intro hmem
    obtain ⟨hr, _⟩ := gcGarbage_sound hmem
    rw [hr] at hpin
    simp at hpin
  rw [if_neg hnm]
  exact hid

/-- A fixed non-empty consistent store used to witness the Multiverse
claims: ids 10, 11, 16 at chain lengths 0, 1 and 60, nothing pinned.
`gc` on it collects exactly id 11 (bucket 0 is a retained checkpoint,
bucket 60 is within the suffix). -/
def mvA : Multiverse :=
  ⟨[(10, ⟨0, 0⟩), (11, ⟨1, 0⟩), (16, ⟨60, 0⟩)],
   [(0, [10]), (1, [11]), (60, [16])],
   []⟩

/-! ### Claim theorems for the Multiverse -/

/-- Claim C9 counterexample: `gc` on the freshly created empty store
panics (`states_by_chain_length.iter().next_back().unwrap()` on an empty
`BTreeMap`), rather than never failing on every reachable store. -/
theorem gc_on_empty_store_panics : Multiverse.new.gc = none := rfl

/-- Claim C9 (amended): `gc` never fails on a store that satisfies the
internal invariants and holds at least one snapshot. -/
theorem gc_total_on_consistent_nonempty (m : Multiverse)
    (hc : Consistent m) (hne : m.states_by_chain_length ≠ []) :
    ∃ m', m.gc = some m' := by
  obtain ⟨m', h, _⟩ := gc_spec hc hne
  exact ⟨m', h⟩

/-- Witness for C9's amended theorem at a concrete consistent store. -/
theorem gc_total_on_consistent_nonempty_witness : ∃ m', mvA.gc = some m' :=
  gc_total_on_consistent_nonempty mvA (by decide) (by decide)

/-- Claim C1: in a consistent store holding snapshots at chain lengths
`0..N`, an id whose snapshot sits at chain length `k < N - SUFFIX_TO_KEEP`
but is pinned by a live GCRoot is still retrievable after `gc()` returns. -/
theorem gc_keeps_pinned_snapshot (m : Multiverse) (N id_k k : Nat) (st : State)
    (hc : Consistent m)
    (hN : ∀ i ≤ N, ∃ p ∈ m.states_by_hash, p.2.chainLength = i)
    (hid : m.get id_k = some st) (hkcl : st.chainLength = k)
    (hk : k + SUFFIX_TO_KEEP < N)
    (hpin : m.pinned id_k) :
    ∃ m', m.gc = some m' ∧ m'.get id_k = some st := by
  have hne : m.states_by_chain_length ≠ [] := by
    obtain ⟨p, hp, _⟩ := hN 0 (Nat.zero_le N)
    have h5 := hc.2.2.2.2 p hp
    intro he
    rw [he] at h5
    simp at h5
  exact gc_preserves_pinned hc hne hpin hid

/-- Witness for C1 at a store with chain lengths `0..51` (`N = 51`),
id `i` stored at chain length `i`, and id 0 pinned by one root. -/
theorem gc_keeps_pinned_snapshot_witness :
    ∃ m', (Multiverse.mk ((List.range 52).map (fun i => (i, ⟨i, 0⟩)))
        ((List.range 52).map (fun i => (i, [i]))) [(0, 1)]).gc = some m'
      ∧ m'.get 0 = some ⟨0, 0⟩ :=
  gc_keeps_pinned_snapshot _ 51 0 0 ⟨0, 0⟩ (by decide) (by decide) (by decide)
    (by decide) (by decide) (by decide)

/-- Claim C3: on a consistent non-empty store, `gc` succeeds and its result
is exactly the spec algorithm's: the identity map equals the spec-side
deletion of every marked id, the chain-length index keeps exactly the
unmarked members, and the pin table is untouched (the marking itself walks
buckets in increasing order with the `keep_from` threshold and the
`SUFFIX_TO_KEEP` cutoff at the maximum chain length `L`). -/
theorem gc_follows_spec_algorithm (m : Multiverse)
    (hc : Consistent m) (hne : m.states_by_chain_length ≠ []) :
    ∃ m', m.gc = some m'
      ∧ (∀ j, alookup m'.states_by_hash j = alookup (gcSpecHash m) j)
      ∧ (∀ cl j, m'.inBucket cl j ↔ m.inBucket cl j ∧ j ∉ gcSpecMarked m)
      ∧ m'.roots = m.roots := by
  obtain ⟨m', hgc, _, hh, hb, hr⟩ := gc_spec hc hne
  have hmk := gcSpecMarked_eq_gcGarbage hc.1 hne
  refine ⟨m', hgc, ?_, ?_, hr⟩
  · intro j
    rw [hh j]
    unfold gcSpecHash
    rw [afilter_lookup, hmk]
  · intro cl j
    rw [hb cl j, hmk]

/-- Witness for C3 at the concrete store `mvA` (where the algorithm
actually marks id 11). -/
theorem gc_follows_spec_algorithm_witness :
    ∃ m', mvA.gc = some m'
      ∧ (∀ j, alookup m'.states_by_hash j = alookup (gcSpecHash mvA) j)
      ∧ (∀ cl j, m'.inBucket cl j ↔ mvA.inBucket cl j ∧ j ∉ gcSpecMarked mvA)
      ∧ m'.roots = mvA.roots :=
  gc_follows_spec_algorithm mvA (by decide) (by decide)

/-- Claim C4 counterexample: `add` is called twice with the same block id
but snapshots of different chain lengths (0 then 1); the store reached is
a legal `add`-sequence result, yet the id sits in the chain-length-1 bucket
while its stored snapshot has chain length 0. -/
theorem readd_different_length_breaks_index :
    Reachable ((Multiverse.new.add 0 ⟨0, 0⟩).add 0 ⟨1, 1⟩)
    ∧ ¬ IndexConsistent ((Multiverse.new.add 0 ⟨0, 0⟩).add 0 ⟨1, 1⟩) :=
  ⟨Reachable.add _ 0 ⟨1, 1⟩ (Reachable.add _ 0 ⟨0, 0⟩ Reachable.new), by decide⟩

/-- Claim C4 (amended): the chain-length index and the snapshot map agree
in every store reachable by `add`, `gc` and root release, provided an
already-stored id is only re-added with a snapshot of the same chain
length (first-write-wins keeps the old snapshot in the map). -/
theorem index_consistent_of_reachable_safe (m : Multiverse)
    (h : ReachableSafe m) : IndexConsistent m :=
  (reachableSafe_consistent h).2.2.2

/-- Witness for C4's amended theorem after one `add` on the empty store. -/
theorem index_consistent_of_reachable_safe_witness :
    IndexConsistent (Multiverse.new.add 5 ⟨0, 3⟩) :=
  index_consistent_of_reachable_safe _
    (ReachableSafe.add _ 5 ⟨0, 3⟩ ReachableSafe.new
      (fun _ h => Option.noConfusion h))

/-- Claim C5: pin counting is reference counted.  Starting from a store
where `id` is stored and unpinned: acquiring one GCRoot creates the entry
at 1, a second raises it to 2; releasing one root brings it back to 1 (the
snapshot is still pinned, and a `gc` pass keeps `get id` returning the
snapshot); releasing the second removes the table entry, leaving the id
unpinned and hence eligible for collection. -/
theorem gcroot_refcount (m : Multiverse) (id : Nat) (st : State)
    (hc : Consistent m) (hne : m.states_by_chain_length ≠ [])
    (hget : m.get id = some st) (h0 : alookup m.roots id = none) :
    alookup (rootsIncr m.roots id) id = some 1
    ∧ alookup (rootsIncr (rootsIncr m.roots id) id) id = some 2
    ∧ ∃ r3, rootsDecr (rootsIncr (rootsIncr m.roots id) id) id = some r3
        ∧ alookup r3 id = some 1
        ∧ (∃ m', Multiverse.gc { m with roots := r3 } = some m'
             ∧ m'.get id = some st)
        ∧ ∃ r4, rootsDecr r3 id = some r4 ∧ alookup r4 id = none := by
  have e1 : rootsIncr m.roots id = m.roots ++ [(id, 1)] := rootsIncr_of_absent h0
  have e2 : rootsIncr (m.roots ++ [(id, 1)]) id = m.roots ++ [(id, 2)] :=
    rootsIncr_of_absent_entry 1 h0
  have e3 : rootsDecr (m.roots ++ [(id, 2)]) id = some (m.roots ++ [(id, 1)]) := by
    have h := rootsDecr_of_absent_entry (r := m.roots) 2 h0
    simpa using h
  have e4 : rootsDecr (m.roots ++ [(id, 1)]) id = some m.roots := by
    have h := rootsDecr_of_absent_entry (r := m.roots) 1 h0
    simpa using h
  refine ⟨?_, ?_, m.roots ++ [(id, 1)], ?_, alookup_append_absent h0, ?_,
    m.roots, e4, h0⟩
  · rw [e1]
    exact alookup_append_absent h0
  · rw [e1, e2]
    exact alookup_append_absent h0
  · rw [e1, e2]
    exact e3
  · have hpin : (alookup (m.roots ++ [(id, 1)]) id).isSome := by
      rw [alookup_append_absent h0]
      rfl
    exact gc_preserves_pinned (m := { m with roots := m.roots ++ [(id, 1)] })
      hc hne hpin hget

/-- Witness for C5 at the concrete store `mvA` (id 11, unpinned there);
the two extra conjuncts check concretely that with the pin table back to
its original empty state the next `gc` really collects id 11. -/
theorem gcroot_refcount_witness :
    (alookup (rootsIncr mvA.roots 11) 11 = some 1
    ∧ alookup (rootsIncr (rootsIncr mvA.roots 11) 11) 11 = some 2
    ∧ ∃ r3, rootsDecr (rootsIncr (rootsIncr mvA.roots 11) 11) 11 = some r3
        ∧ alookup r3 11 = some 1
        ∧ (∃ m', Multiverse.gc { mvA with roots := r3 } = some m'
             ∧ m'.get 11 = some ⟨1, 0⟩)
        ∧ ∃ r4, rootsDecr r3 11 = some r4 ∧ alookup r4 11 = none)
    ∧ (mvA.gc).isSome = true
    ∧ (mvA.gc).bind (fun mm => mm.get 11) = none :=
  ⟨gcroot_refcount mvA 11 ⟨1, 0⟩ (by decide) (by decide) rfl rfl,
   by decide, by decide⟩

/-! ## The UTXO Ledger (src/chain-impl-mockchain/src/utxo.rs)

`FragmentId`, `TransactionIndex` (a `u8`) and `Output` become `Nat`; the
`Hamt` outer map and the `BTreeMap` inner map become association lists
(the inner one kept sorted by index).  `RustResult` distinguishes a panic
(`assert!` failure) from the `Result::Err` values the caller can see. -/

inductive UtxoError where
  | AlreadyExists
  | TransactionNotFound
  | IndexNotFound
deriving DecidableEq, Repr

inductive RustResult (α : Type) where
  | panicked
  | err (e : UtxoError)
  | ok (a : α)
deriving DecidableEq, Repr

/-- `BTreeMap::insert` on the sorted inner map: overwrite an existing
index, otherwise insert at the sorted position. -/
def binsert : List (Nat × Nat) → Nat → Nat → List (Nat × Nat)
  | [], k, v => [(k, v)]
  | (k', v') :: rest, k, v =>
    if k < k' then (k, v) :: (k', v') :: rest
    else if k = k' then (k, v) :: rest
    else (k', v') :: binsert rest k v

/-- The `TransactionUnspents::from_outputs` loop: fold `b.insert(*index,
output)` over the slice, silently keeping the last occurrence of a
duplicated index (its `assert!(outs.len() < 255)` is the same assertion
`Ledger::add` performs first and is modelled there). -/
def from_outputs (outs : List (Nat × Nat)) : List (Nat × Nat) :=
  outs.foldl (fun b p => binsert b p.1 p.2) []

/-- `BTreeMap::remove` on the inner map, returning the removed output. -/
def bremove : List (Nat × Nat) → Nat → Option (List (Nat × Nat) × Nat)
  | [], _ => none
  | (k', v') :: rest, k =>
    if k = k' then some (rest, v')
    else (bremove rest k).map (fun r => ((k', v') :: r.1, r.2))

/-- `TransactionUnspents::remove_input`: `assert!(index < 255)` (panic on
255 and above), then remove the index or report `IndexNotFound`. -/
def remove_input (u : List (Nat × Nat)) (index : Nat) :
    RustResult (List (Nat × Nat) × Nat) :=
  if index < 255 then
    match bremove u index with
    | none => .err .IndexNotFound
    | some r => .ok r
  else .panicked

/-- `Hamt::insert`: fails if the key is present. -/
def hinsert {α : Type} (l : List (Nat × α)) (k : Nat) (v : α) : Option (List (Nat × α)) :=
  match alookup l k with
  | some _ => none
  | none => some ((k, v) :: l)

/-- `Hamt::remove`: fails if the key is absent. -/
def hremove {α : Type} (l : List (Nat × α)) (k : Nat) : Option (List (Nat × α)) :=
  match alookup l k with
  | some _ => some (aerase l k)
  | none => none

/-- `Hamt::replace`: fails if the key is absent; returns the old value. -/
def hreplace {α : Type} (l : List (Nat × α)) (k : Nat) (v : α) :
    Option (List (Nat × α) × α) :=
  match alookup l k with
  | some old => some (areplace l k v, old)
  | none => none

/-- `Ledger<OutAddress>`: a persistent map from transaction id to its
unspent (index, output) map. -/
structure Ledger where
  map : List (Nat × List (Nat × Nat))
deriving DecidableEq, Repr

/-- `Ledger::new`. -/
def Ledger.new : Ledger := ⟨[]⟩

/-- `Ledger::add`: `assert!(outs.len() < 255)`, build the inner map, insert
it; `AlreadyExists` if the transaction id is present. -/
def Ledger.add (l : Ledger) (tid : Nat) (outs : List (Nat × Nat)) : RustResult Ledger :=
  if outs.length < 255 then
    match hinsert l.map tid (from_outputs outs) with
    | none => .err .AlreadyExists
    | some m2 => .ok ⟨m2⟩
  else .panicked

/-- `Ledger::remove`: look the transaction up (`TransactionNotFound`),
remove the index via `remove_input`, then either drop the whole entry
(when the inner map emptied) or replace it. -/
def Ledger.remove (l : Ledger) (tid : Nat) (index : Nat) :
    RustResult (Ledger × Nat) :=
  match alookup l.map tid with
  | none => .err .TransactionNotFound
  | some u =>
    match remove_input u index with
    | .panicked => .panicked
    | .err e => .err e
    | .ok (t, o) =>
      if t = [] then
        match hremove l.map tid with
        | none => .err .TransactionNotFound
        | some m2 => .ok (⟨m2⟩, o)
      else
        match hreplace l.map tid t with
        | none => .err .TransactionNotFound
        | some r => .ok (⟨r.1⟩, o)

/-- The index loop of `Ledger::remove_multiple`: remove the listed indices
one after another from the inner map, pushing the outputs in order. -/
def removeInputsLoop : List (Nat × Nat) → List Nat → RustResult (List (Nat × Nat) × List Nat)
  | u, [] => .ok (u, [])
  | u, i :: rest =>
    match remove_input u i with
    | .panicked => .panicked
    | .err e => .err e
    | .ok (t, o) =>
      match removeInputsLoop t rest with
      | .panicked => .panicked
      | .err e => .err e
      | .ok (t2, os) => .ok (t2, o :: os)

/-- `Ledger::remove_multiple`. -/
def Ledger.remove_multiple (l : Ledger) (tid : Nat) (idxs : List Nat) :
    RustResult (Ledger × List Nat) :=
  match alookup l.map tid with
  | none => .err .TransactionNotFound
  | some u =>
    match removeInputsLoop u idxs with
    | .panicked => .panicked
    | .err e => .err e
    | .ok (t, os) =>
      if t = [] then
        match hremove l.map tid with
        | none => .err .TransactionNotFound
        | some m2 => .ok (⟨m2⟩, os)
      else
        match hreplace l.map tid t with
        | none => .err .TransactionNotFound
        | some r => .ok (⟨r.1⟩, os)

/-- `Ledger::get`: pure two-level lookup, no assertion. -/
def Ledger.get (l : Ledger) (tid : Nat) (index : Nat) : Option Nat :=
  (alookup l.map tid).bind (fun u => alookup u index)

/-- The claimed outer-entry invariant: a present transaction id always has
a non-empty inner map. -/
def LedgerInv (l : Ledger) : Prop := ∀ p ∈ l.map, p.2 ≠ []

instance (l : Ledger) : Decidable (LedgerInv l) := by
  unfold LedgerInv
  infer_instance

/-- Ledgers reachable from the empty ledger by successful `add` / `remove`
/ `remove_multiple` calls. -/
inductive LReach : Ledger → Prop
  | new : LReach Ledger.new
  | add (l : Ledger) (tid : Nat) (outs : List (Nat × Nat)) (l' : Ledger) :
      LReach l → l.add tid outs = .ok l' → LReach l'
  | rem (l : Ledger) (tid i : Nat) (l' : Ledger) (o : Nat) :
      LReach l → l.remove tid i = .ok (l', o) → LReach l'
  | remm (l : Ledger) (tid : Nat) (idxs : List Nat) (l' : Ledger) (os : List Nat) :
      LReach l → l.remove_multiple tid idxs = .ok (l', os) → LReach l'

/-- Same reachability, but every `add` supplies at least one output. -/
inductive LReachNE : Ledger → Prop
  | new : LReachNE Ledger.new
  | add (l : Ledger) (tid : Nat) (outs : List (Nat × Nat)) (l' : Ledger) :
      LReachNE l → outs ≠ [] → l.add tid outs = .ok l' → LReachNE l'
  | rem (l : Ledger) (tid i : Nat) (l' : Ledger) (o : Nat) :
      LReachNE l → l.remove tid i = .ok (l', o) → LReachNE l'
  | remm (l : Ledger) (tid : Nat) (idxs : List Nat) (l' : Ledger) (os : List Nat) :
      LReachNE l → l.remove_multiple tid idxs = .ok (l', os) → LReachNE l'

/-- Well-formedness of the list embedding of a ledger: duplicate-free
outer keys and sorted inner maps (automatic for the Rust `Hamt` /
`BTreeMap`). -/
def TUWF (u : List (Nat × Nat)) : Prop := List.Pairwise (· < ·) (u.map Prod.fst)

def LedgerWF (l : Ledger) : Prop :=
  (l.map.map Prod.fst).Nodup ∧ ∀ p ∈ l.map, TUWF p.2

instance (u : List (Nat × Nat)) : Decidable (TUWF u) := by
  unfold TUWF
  infer_instance

instance (l : Ledger) : Decidable (LedgerWF l) := by
  unfold LedgerWF
  infer_instance

/-! ### UTXO lemma bank -/

theorem binsert_ne_nil (b : List (Nat × Nat)) (k v : Nat) : binsert b k v ≠ [] := by
  cases b with
  | nil => simp [binsert]
  | cons p rest =>
    obtain ⟨k', v'⟩ := p
    by_cases h1 : k < k'
    · simp [binsert, h1]
    · by_cases h2 : k = k' <;> simp [binsert, h1, h2]

theorem foldl_binsert_ne_nil :
    ∀ (outs : List (Nat × Nat)) (b : List (Nat × Nat)), b ≠ [] →
      outs.foldl (fun b p => binsert b p.1 p.2) b ≠ [] := by
  intro outs
  induction outs with
  | nil =>
    intro b hb
    exact hb
  | cons p rest ih =>
    intro b _
    exact ih (binsert b p.1 p.2) (binsert_ne_nil b p.1 p.2)

theorem from_outputs_ne_nil {outs : List (Nat × Nat)} (h : outs ≠ []) :
    from_outputs outs ≠ [] := by
  cases outs with
  | nil => exact absurd rfl h
  | cons p rest =>
    show rest.foldl (fun b p => binsert b p.1 p.2) (binsert [] p.1 p.2) ≠ []
    exact foldl_binsert_ne_nil rest _ (binsert_ne_nil [] p.1 p.2)

theorem bremove_eq_none {u : List (Nat × Nat)} {i : Nat}
    (h : alookup u i = none) : bremove u i = none := by
  induction u with
  | nil => rfl
  | cons p rest ih =>
    obtain ⟨k', v'⟩ := p
    rw [alookup_cons] at h
    by_cases hk : i = k'
    · simp [hk] at h
    · rw [if_neg hk] at h
      simp [bremove, hk, ih h]

theorem bremove_some {u : List (Nat × Nat)} {i v : Nat} (hwf : TUWF u)
    (h : alookup u i = some v) :
    ∃ t, bremove u i = some (t, v)
      ∧ (t.map Prod.fst).Sublist (u.map Prod.fst)
      ∧ TUWF t
      ∧ ∀ j, alookup t j = if j = i then none else alookup u j := by
  induction u with
  | nil => simp at h
  | cons p rest ih =>
    obtain ⟨k', v'⟩ := p
    unfold TUWF at hwf
    rw [List.map_cons, List.pairwise_cons] at hwf
    by_cases hk : i = k'
    · subst hk
      rw [alookup_cons, if_pos rfl] at h
      have hv : v' = v := Option.some.inj h
      refine ⟨rest, by simp [bremove, hv], ?_, hwf.2, ?_⟩
      · exact (List.Sublist.refl _).cons _
      · intro j
        by_cases hj : j = i
        · subst hj
          rw [if_pos rfl]
          apply alookup_eq_none_of_not_mem_keys
          intro hm
          exact Nat.lt_irrefl j (hwf.1 j hm)
        · rw [if_neg hj, alookup_cons, if_neg hj]
    · rw [alookup_cons, if_neg hk] at h
      obtain ⟨t', he, hsub, hwf', hch⟩ := ih hwf.2 h
      refine ⟨(k', v') :: t', by simp [bremove, hk, he], ?_, ?_, ?_⟩
      · rw [List.map_cons, List.map_cons]
        exact hsub.cons₂ _
      · unfold TUWF
        rw [List.map_cons, List.pairwise_cons]
        exact ⟨fun x hx => hwf.1 x (hsub.subset hx), hwf'⟩
      · intro j
        by_cases hj : j = k'
        · subst hj
          have hji : ¬ j = i := fun hh => hk (hh.symm ▸ rfl)
          rw [if_neg hji, alookup_cons, if_pos rfl, alookup_cons, if_pos rfl]
        · rw [alookup_cons, if_neg hj, hch j, alookup_cons]
          by_cases hji : j = i <;> simp [hji, hj]

theorem remove_input_ok {u t : List (Nat × Nat)} {i o : Nat}
    (h : remove_input u i = .ok (t, o)) : i < 255 ∧ bremove u i = some (t, o) := by
  unfold remove_input at h
  by_cases hi : i < 255
  · rw [if_pos hi] at h
    cases hb : bremove u i with
    | none =>
      rw [hb] at h
      simp at h
    | some r =>
      rw [hb] at h
      simp at h
      rw [h]
      exact ⟨hi, rfl⟩
  · rw [if_neg hi] at h
    simp at h

theorem remove_input_err {u : List (Nat × Nat)} {i : Nat} {e : UtxoError}
    (h : remove_input u i = .err e) : e = .IndexNotFound := by
  unfold remove_input at h
  by_cases hi : i < 255
  · rw [if_pos hi] at h
    cases hb : bremove u i with
    | none =>
      rw [hb] at h
      exact (RustResult.err.inj h).symm
    | some r =>
      rw [hb] at h
      simp at h
  · rw [if_neg hi] at h
    simp at h

theorem add_ok_shape {l : Ledger} {tid : Nat} {outs : List (Nat × Nat)} {l' : Ledger}
    (h : l.add tid outs = .ok l') :
    l'.map = (tid, from_outputs outs) :: l.map
    ∧ alookup l.map tid = none ∧ outs.length < 255 := by
  unfold Ledger.add at h
  by_cases hlen : outs.length < 255
  · rw [if_pos hlen] at h
    unfold hinsert at h
    cases htid : alookup l.map tid with
    | some u =>
      rw [htid] at h
      simp at h
    | none =>
      rw [htid] at h
      simp at h
      exact ⟨by rw [← h], rfl, hlen⟩
  · rw [if_neg hlen] at h
    simp at h

theorem remove_ok_shape {l : Ledger} {tid i : Nat} {l' : Ledger} {o : Nat}
    (h : l.remove tid i = .ok (l', o)) :
    ∃ u, alookup l.map tid = some u
      ∧ (l'.map = aerase l.map tid
         ∨ ∃ t, t ≠ [] ∧ l'.map = areplace l.map tid t) := by
  unfold Ledger.remove at h
  cases htid : alookup l.map tid with
  | none =>
    rw [htid] at h
    simp at h
  | some u =>
    rw [htid] at h
    simp only [] at h
    refine ⟨u, rfl, ?_⟩
    cases hri : remove_input u i with
    | panicked =>
      rw [hri] at h
      simp at h
    | err e =>
      rw [hri] at h
      simp at h
    | ok r =>
      obtain ⟨t, o'⟩ := r
      rw [hri] at h
      simp only [] at h
      by_cases ht : t = []
      · rw [if_pos ht] at h
        unfold hremove at h
        rw [htid] at h
        simp at h
        left
        rw [← h.1]
      · rw [if_neg ht] at h
        unfold hreplace at h
        rw [htid] at h
        simp at h
        right
        exact ⟨t, ht, by rw [← h.1]⟩

theorem remove_multiple_ok_shape {l : Ledger} {tid : Nat} {idxs : List Nat}
    {l' : Ledger} {os : List Nat}
    (h : l.remove_multiple tid idxs = .ok (l', os)) :
    ∃ u, alookup l.map tid = some u
      ∧ ∃ t, removeInputsLoop u idxs = .ok (t, os)
        ∧ ((t = [] ∧ l'.map = aerase l.map tid)
           ∨ (t ≠ [] ∧ l'.map = areplace l.map tid t)) := by
  unfold Ledger.remove_multiple at h
  cases htid : alookup l.map tid with
  | none =>
    rw [htid] at h
    simp at h
  | some u =>
    rw [htid] at h
    simp only [] at h
    refine ⟨u, rfl, ?_⟩
    cases hloop : removeInputsLoop u idxs with
    | panicked =>
      rw [hloop] at h
      simp at h
    | err e =>
      rw [hloop] at h
      simp at h
    | ok r =>
      obtain ⟨t, os'⟩ := r
      rw [hloop] at h
      simp only [] at h
      by_cases ht : t = []
      · rw [if_pos ht] at h
        unfold hremove at h
        rw [htid] at h
        simp at h
        refine ⟨t, ?_, Or.inl ⟨ht, by rw [← h.1]⟩⟩
        rw [h.2]
      · rw [if_neg ht] at h
        unfold hreplace at h
        rw [htid] at h
        simp at h
        refine ⟨t, ?_, Or.inr ⟨ht, by rw [← h.1]⟩⟩
        rw [h.2]

theorem removeInputsLoop_err {idxs : List Nat} :
    ∀ {u : List (Nat × Nat)}, TUWF u → (∀ i ∈ idxs, i < 255) →
      (∃ i ∈ idxs, alookup u i = none) →
      removeInputsLoop u idxs = .err .IndexNotFound := by
  induction idxs with
  | nil =>
    intro u _ _ hmiss
    simp at hmiss
  | cons i rest ih =>
    intro u hwf hlt hmiss
    have hi : i < 255 := hlt i (List.mem_cons_self i rest)
    cases hu : alookup u i with
    | none =>
      have hb := bremove_eq_none hu
      simp [removeInputsLoop, remove_input, hi, hb]
    | some v =>
      obtain ⟨t, he, _, hwf', hch⟩ := bremove_some hwf hu
      have hstep : remove_input u i = .ok (t, v) := by
        simp [remove_input, hi, he]
      obtain ⟨i', hi', hmiss'⟩ := hmiss
      have hrest : ∃ j ∈ rest, alookup t j = none := by
        rcases List.mem_cons.mp hi' with hcase | hcase
        · subst hcase
          rw [hu] at hmiss'
          exact Option.noConfusion hmiss'
        · refine ⟨i', hcase, ?_⟩
          rw [hch i']
          by_cases hii : i' = i
          · simp [hii]
          · rw [if_neg hii]
            exact hmiss'
      have := ih hwf' (fun x hx => hlt x (List.mem_cons_of_mem _ hx)) hrest
      simp [removeInputsLoop, hstep, this]

theorem removeInputsLoop_ok {idxs : List Nat} :
    ∀ {u t2 : List (Nat × Nat)} {os : List Nat}, TUWF u →
      removeInputsLoop u idxs = .ok (t2, os) →
      idxs.Nodup
      ∧ (∀ i ∈ idxs, (alookup u i).isSome)
      ∧ os = idxs.filterMap (fun i => alookup u i)
      ∧ TUWF t2
      ∧ ∀ j, alookup t2 j = if j ∈ idxs then none else alookup u j := by
  induction idxs with
  | nil =>
    intro u t2 os hwf h
    simp [removeInputsLoop] at h
    obtain ⟨h1, h2⟩ := h
    subst h1
    subst h2
    exact ⟨List.nodup_nil, by simp, by simp, hwf, fun j => by simp⟩
  | cons i rest ih =>
    intro u t2 os hwf h
    simp only [removeInputsLoop] at h
    cases hri : remove_input u i with
    | panicked =>
      rw [hri] at h
      simp at h
    | err e =>
      rw [hri] at h
      simp at h
    | ok r =>
      obtain ⟨t, o⟩ := r
      rw [hri] at h
      simp only [] at h
      obtain ⟨hi255, hb⟩ := remove_input_ok hri
      have hu : alookup u i = some o := by
        cases hu' : alookup u i with
        | none =>
          rw [bremove_eq_none hu'] at hb
          exact Option.noConfusion hb
        | some v =>
          obtain ⟨t', he', _, _, _⟩ := bremove_some hwf hu'
          rw [he'] at hb
          have hvo := Prod.mk.injEq .. ▸ Option.some.inj hb
          rw [hvo.2]
      obtain ⟨t', he', _, hwft, hcht⟩ := bremove_some hwf hu
      rw [he'] at hb
      have hteq : t' = t := (Prod.ext_iff.mp (Option.some.inj hb)).1
      subst hteq
      cases hloop : removeInputsLoop t' rest with
      | panicked =>
        rw [hloop] at h
        simp at h
      | err e =>
        rw [hloop] at h
        simp at h
      | ok r2 =>
        obtain ⟨t2', os'⟩ := r2
        rw [hloop] at h
        simp only [] at h
        simp at h
        obtain ⟨ht2, hos⟩ := h
        subst ht2
        obtain ⟨hnd, hpres, hos', hwf2, hch2⟩ := ih hwft hloop
        have hnotin : i ∉ rest := by
          intro hmem
          have := hpres i hmem
          rw [hcht i, if_pos rfl] at this
          simp at this
        have hlookeq : ∀ x ∈ rest, alookup t' x = alookup u x := by
          intro x hx
          rw [hcht x]
          have hxi : ¬ x = i := fun he => hnotin (he ▸ hx)
          rw [if_neg hxi]
        refine ⟨List.nodup_cons.mpr ⟨hnotin, hnd⟩, ?_, ?_, hwf2, ?_⟩
        · intro x hx
          rcases List.mem_cons.mp hx with hx | hx
          · rw [hx, hu]
            rfl
          · rw [← hlookeq x hx]
            exact hpres x hx
        · rw [← hos]
          rw [List.filterMap_cons, hu]
          rw [hos']
          rw [List.filterMap_congr (fun x hx => (hlookeq x hx).symm)]
        · intro j
          rw [hch2 j]
          by_cases hjr : j ∈ rest
          · simp [hjr]
          · rw [if_neg hjr, hcht j]
            by_cases hji : j = i
            · simp [hji]
            · simp [hji, hjr]

/-! ### Invariant preservation for the Ledger -/

theorem ledgerInv_of_reachNE : ∀ {l : Ledger}, LReachNE l → LedgerInv l := by
  intro l h
  induction h with
  | new =>
    intro p hp
    simp [Ledger.new] at hp
  | add l tid outs l' _ hne hok ih =>
    obtain ⟨hmap, _, _⟩ := add_ok_shape hok
    intro p hp
    rw [hmap] at hp
    rcases List.mem_cons.mp hp with hp | hp
    · rw [hp]
      exact from_outputs_ne_nil hne
    · exact ih p hp
  | rem l tid i l' o _ hok ih =>
    obtain ⟨u, _, hshape⟩ := remove_ok_shape hok
    intro p hp
    rcases hshape with hmap | ⟨t, ht, hmap⟩
    · rw [hmap] at hp
      exact ih p (mem_aerase.mp hp).1
    · rw [hmap] at hp
      rcases mem_areplace hp with ⟨_, h2⟩ | ⟨h1, _⟩
      · rw [h2]
        exact ht
      · exact ih p h1
  | remm l tid idxs l' os _ hok ih =>
    obtain ⟨u, _, t, _, hshape⟩ := remove_multiple_ok_shape hok
    intro p hp
    rcases hshape with ⟨_, hmap⟩ | ⟨ht, hmap⟩
    · rw [hmap] at hp
      exact ih p (mem_aerase.mp hp).1
    · rw [hmap] at hp
      rcases mem_areplace hp with ⟨_, h2⟩ | ⟨h1, _⟩
      · rw [h2]
        exact ht
      · exact ih p h1

/-! ### Error-case lemmas for `remove` and `remove_multiple` -/

theorem remove_absent (l : Ledger) (tid i : Nat)
    (h : alookup l.map tid = none) :
    l.remove tid i = .err .TransactionNotFound := by
  unfold Ledger.remove
  rw [h]

theorem remove_index_missing (l : Ledger) (u : List (Nat × Nat)) (tid i : Nat)
    (htid : alookup l.map tid = some u) (hi : i < 255)
    (hmiss : alookup u i = none) :
    l.remove tid i = .err .IndexNotFound := by
  unfold Ledger.remove
  rw [htid]
  simp only []
  unfold remove_input
  rw [if_pos hi, bremove_eq_none hmiss]

theorem remove_at_255 (l : Ledger) (u : List (Nat × Nat)) (tid : Nat)
    (htid : alookup l.map tid = some u) :
    l.remove tid 255 = .panicked := by
  unfold Ledger.remove
  rw [htid]
  simp only []
  unfold remove_input
  rw [if_neg (by omega)]

theorem remove_total_below_255 (l : Ledger) (tid i : Nat) (hi : i < 255) :
    (∃ r, l.remove tid i = .ok r)
    ∨ l.remove tid i = .err .TransactionNotFound
    ∨ l.remove tid i = .err .IndexNotFound := by
  unfold Ledger.remove
  cases htid : alookup l.map tid with
  | none =>
    right
    left
    rfl
  | some u =>
    simp only []
    unfold remove_input
    rw [if_pos hi]
    cases hb : bremove u i with
    | none =>
      right
      right
      rfl
    | some r =>
      obtain ⟨t, o⟩ := r
      simp only []
      by_cases ht : t = []
      · rw [if_pos ht]
        unfold hremove
        rw [htid]
        exact Or.inl ⟨_, rfl⟩
      · rw [if_neg ht]
        unfold hreplace
        rw [htid]
        exact Or.inl ⟨_, rfl⟩

theorem remove_err_cases (l : Ledger) (tid i : Nat) (e : UtxoError)
    (h : l.remove tid i = .err e) :
    e = .TransactionNotFound ∨ e = .IndexNotFound := by
  unfold Ledger.remove at h
  cases htid : alookup l.map tid with
  | none =>
    rw [htid] at h
    simp only [] at h
    exact Or.inl (RustResult.err.inj h).symm
  | some u =>
    rw [htid] at h
    simp only [] at h
    cases hri : remove_input u i with
    | panicked =>
      rw [hri] at h
      simp at h
    | err e' =>
      rw [hri] at h
      simp only [] at h
      have he' := remove_input_err hri
      rw [← (RustResult.err.inj h), he']
      exact Or.inr rfl
    | ok r =>
      obtain ⟨t, o⟩ := r
      rw [hri] at h
      simp only [] at h
      by_cases ht : t = []
      · rw [if_pos ht] at h
        unfold hremove at h
        rw [htid] at h
        simp at h
      · rw [if_neg ht] at h
        unfold hreplace at h
        rw [htid] at h
        simp at h

theorem remove_multiple_absent (l : Ledger) (tid : Nat) (idxs : List Nat)
    (h : alookup l.map tid = none) :
    l.remove_multiple tid idxs = .err .TransactionNotFound := by
  unfold Ledger.remove_multiple
  rw [h]

theorem remove_multiple_index_missing (l : Ledger) (u : List (Nat × Nat))
    (tid : Nat) (idxs : List Nat)
    (htid : alookup l.map tid = some u) (hwf : TUWF u)
    (hlt : ∀ i ∈ idxs, i < 255) (hmiss : ∃ i ∈ idxs, alookup u i = none) :
    l.remove_multiple tid idxs = .err .IndexNotFound := by
  unfold Ledger.remove_multiple
  rw [htid]
  simp only []
  rw [removeInputsLoop_err hwf hlt hmiss]

theorem remove_multiple_ok_char {l : Ledger} {tid : Nat} {idxs : List Nat}
    {l' : Ledger} {os : List Nat} {u : List (Nat × Nat)}
    (hwf : TUWF u) (htid : alookup l.map tid = some u)
    (h : l.remove_multiple tid idxs = .ok (l', os)) :
    idxs.Nodup
    ∧ (∀ i ∈ idxs, (alookup u i).isSome)
    ∧ os = idxs.filterMap (fun i => alookup u i)
    ∧ (∀ j, alookup ((alookup l'.map tid).getD []) j =
          if j ∈ idxs then none else alookup u j)
    ∧ (∀ tid2, tid2 ≠ tid → alookup l'.map tid2 = alookup l.map tid2) := by
  obtain ⟨u', htid', t, hloop, hshape⟩ := remove_multiple_ok_shape h
  rw [htid] at htid'
  have hu : u' = u := (Option.some.inj htid').symm
  subst hu
  obtain ⟨hnd, hpres, hos, _, hch⟩ := removeInputsLoop_ok hwf hloop
  refine ⟨hnd, hpres, hos, ?_, ?_⟩
  · intro j
    rcases hshape with ⟨ht, hmap⟩ | ⟨ht, hmap⟩
    · rw [hmap, aerase_lookup, if_pos rfl]
      have := hch j
      rw [ht] at this
      simp at this
      rw [← this]
      simp
    · rw [hmap, areplace_lookup, if_pos rfl, htid]
      simp only [Option.map_some', Option.getD_some]
      exact hch j
  · intro tid2 hne
    rcases hshape with ⟨_, hmap⟩ | ⟨_, hmap⟩
    · rw [hmap, aerase_lookup, if_neg hne]
    · rw [hmap, areplace_lookup, if_neg hne]

/-! ### Claim theorems for the UTXO Ledger -/

/-- Claim C2 counterexample: `add` with an empty output list succeeds and
creates an outer entry whose inner map is empty.  The resulting ledger is
reachable from the empty ledger by one `add` call, yet a transaction id is
present with no output index present. -/
theorem add_empty_outputs_breaks_inv :
    LReach ⟨[(0, [])]⟩ ∧ ¬ LedgerInv ⟨[(0, [])]⟩ :=
  ⟨LReach.add Ledger.new 0 [] ⟨[(0, [])]⟩ LReach.new (by decide), by decide⟩

/-- Claim C2 (amended): along any sequence of `add` (each call supplying
at least one output) / `remove` / `remove_multiple` from the empty ledger,
a present transaction id always has a non-empty inner map; and `remove`
never leaves an empty inner map behind in the produced version — removing
the last remaining index deletes the outer entry in the same transition. -/
theorem ledger_outer_entry_invariant :
    (∀ l : Ledger, LReachNE l → LedgerInv l)
    ∧ ∀ (l : Ledger) (tid i : Nat) (l' : Ledger) (o : Nat),
        l.remove tid i = .ok (l', o) →
        alookup l'.map tid = none ∨ ∃ t, t ≠ [] ∧ alookup l'.map tid = some t := by
  constructor
  · intro l h
    exact ledgerInv_of_reachNE h
  · intro l tid i l' o h
    obtain ⟨u, htid, hshape⟩ := remove_ok_shape h
    rcases hshape with hmap | ⟨t, ht, hmap⟩
    · left
      rw [hmap, aerase_lookup, if_pos rfl]
    · right
      refine ⟨t, ht, ?_⟩
      rw [hmap, areplace_lookup, if_pos rfl, htid]
      rfl

/-- Witness for C2's amended theorem after one non-empty `add`. -/
theorem ledger_outer_entry_invariant_witness :
    LedgerInv ⟨[(7, [(0, 5)])]⟩ :=
  ledger_outer_entry_invariant.1 _
    (LReachNE.add Ledger.new 7 [(0, 5)] _ LReachNE.new (by decide) (by decide))

/-- Claim C6 counterexample: with the transaction present and listed index
255 missing from its inner map, `remove_multiple` panics on
`assert!(index < 255)` instead of returning an error. -/
theorem remove_multiple_at_255_panics :
    Ledger.remove_multiple ⟨[(0, [(0, 7)])]⟩ 0 [255] = .panicked := by decide

/-- Claim C6 (amended): for index lists whose members are all below 255,
`remove_multiple` is all-or-nothing: an absent transaction yields
`TransactionNotFound`, a missing listed index yields `IndexNotFound` (and,
the operation being a pure function, the receiver version is untouched —
the error carries no new ledger); on success the listed indices are
pairwise distinct and were all present, the returned outputs are exactly
the outputs previously stored at the listed indices in order, the new
version lacks exactly the listed indices for that transaction (dropping
the outer entry if none remain), and every other transaction is unchanged.
A listed index of 255 with the transaction present panics instead. -/
theorem remove_multiple_all_or_nothing :
    (∀ (l : Ledger) (tid : Nat) (idxs : List Nat),
        alookup l.map tid = none →
        l.remove_multiple tid idxs = .err .TransactionNotFound)
    ∧ (∀ (l : Ledger) (u : List (Nat × Nat)) (tid : Nat) (idxs : List Nat),
        TUWF u → alookup l.map tid = some u → (∀ i ∈ idxs, i < 255) →
        (∃ i ∈ idxs, alookup u i = none) →
        l.remove_multiple tid idxs = .err .IndexNotFound)
    ∧ (∀ (l : Ledger) (u : List (Nat × Nat)) (tid : Nat) (idxs : List Nat)
        (l' : Ledger) (os : List Nat),
        TUWF u → alookup l.map tid = some u →
        l.remove_multiple tid idxs = .ok (l', os) →
        idxs.Nodup
        ∧ (∀ i ∈ idxs, (alookup u i).isSome)
        ∧ os = idxs.filterMap (fun i => alookup u i)
        ∧ (∀ j, alookup ((alookup l'.map tid).getD []) j =
              if j ∈ idxs then none else alookup u j)
        ∧ (∀ tid2, tid2 ≠ tid → alookup l'.map tid2 = alookup l.map tid2)) :=
  ⟨remove_multiple_absent,
   fun l u tid idxs hwf htid hlt hmiss =>
     remove_multiple_index_missing l u tid idxs htid hwf hlt hmiss,
   fun _ _ _ _ _ _ hwf htid h => remove_multiple_ok_char hwf htid h⟩

/-- Witness for C6's amended theorem: a missing (but representable) index
below 255 produces `IndexNotFound`. -/
theorem remove_multiple_all_or_nothing_witness :
    Ledger.remove_multiple ⟨[(3, [(0, 7), (2, 9)])]⟩ 3 [5] = .err .IndexNotFound :=
  remove_multiple_all_or_nothing.2.1 ⟨[(3, [(0, 7), (2, 9)])]⟩ [(0, 7), (2, 9)]
    3 [5] (by decide) (by decide) (by decide) (by decide)

/-- Claim C7 counterexample: with the transaction present and index 255
absent from its inner map, `remove` panics on `assert!(index < 255)`; it
does not return `IndexNotFound`. -/
theorem remove_at_255_not_index_error :
    Ledger.remove ⟨[(0, [(0, 7)])]⟩ 0 255 = .panicked := by decide

/-- Claim C7 (amended): `remove` returns `TransactionNotFound` whenever the
transaction id is absent (any index); it returns `IndexNotFound` when the
transaction is present and an index below 255 is absent from its inner
map; with the transaction present and index 255 it panics on an assertion
instead; and `TransactionNotFound` / `IndexNotFound` are the only error
values `remove` can return. -/
theorem remove_error_outcomes :
    (∀ (l : Ledger) (tid i : Nat), alookup l.map tid = none →
        l.remove tid i = .err .TransactionNotFound)
    ∧ (∀ (l : Ledger) (u : List (Nat × Nat)) (tid i : Nat),
        alookup l.map tid = some u → i < 255 → alookup u i = none →
        l.remove tid i = .err .IndexNotFound)
    ∧ (∀ (l : Ledger) (u : List (Nat × Nat)) (tid : Nat),
        alookup l.map tid = some u → l.remove tid 255 = .panicked)
    ∧ (∀ (l : Ledger) (tid i : Nat) (e : UtxoError),
        l.remove tid i = .err e → e = .TransactionNotFound ∨ e = .IndexNotFound) :=
  ⟨remove_absent,
   fun l u tid i h1 h2 h3 => remove_index_missing l u tid i h1 h2 h3,
   fun l u tid h => remove_at_255 l u tid h,
   remove_err_cases⟩

/-- Witness for C7's amended theorem: absent transaction id. -/
theorem remove_error_outcomes_witness :
    Ledger.remove ⟨[(4, [(1, 8)])]⟩ 9 1 = .err .TransactionNotFound :=
  remove_error_outcomes.1 ⟨[(4, [(1, 8)])]⟩ 9 1 (by decide)

/-- Claim C10: `remove` at index 255 panics on `assert!(index < 255)`
whenever the transaction is present — before the index is even looked up,
so it panics even on a ledger that actually stores index 255; and for
every index below 255 the assertion cannot fire: `remove` returns `Ok` or
one of the two documented errors. -/
theorem remove_assert_behaviour :
    (∀ (l : Ledger) (u : List (Nat × Nat)) (tid : Nat),
        alookup l.map tid = some u → l.remove tid 255 = .panicked)
    ∧ (∀ (l : Ledger) (tid i : Nat), i < 255 →
        (∃ r, l.remove tid i = .ok r)
        ∨ l.remove tid i = .err .TransactionNotFound
        ∨ l.remove tid i = .err .IndexNotFound) :=
  ⟨fun l u tid h => remove_at_255 l u tid h, remove_total_below_255⟩

/-- Witness for C10: the panic fires even though index 255 is stored for
the transaction (the assertion precedes the lookup). -/
theorem remove_assert_behaviour_witness :
    Ledger.remove ⟨[(0, [(255, 7)])]⟩ 0 255 = .panicked :=
  remove_assert_behaviour.1 ⟨[(0, [(255, 7)])]⟩ [(255, 7)] 0 (by decide)

/-- Claim C8 (behaviour at the failing input): `Ledger::add` only asserts
`outs.len() < 255` and never checks the index values themselves, so it
accepts and stores output index 255; the stored index is visible through
`get`, and `remove` of it then panics on `remove_input`'s
`assert!(index < 255)`.  Duplicate indices in one call do keep the last
occurrence, as the claim states. -/
theorem add_accepts_index_255 :
    Ledger.new.add 0 [(255, 7)] = .ok ⟨[(0, [(255, 7)])]⟩
    ∧ Ledger.get ⟨[(0, [(255, 7)])]⟩ 0 255 = some 7
    ∧ Ledger.remove ⟨[(0, [(255, 7)])]⟩ 0 255 = .panicked
    ∧ from_outputs [(0, 1), (0, 2)] = [(0, 2)] :=
  ⟨by decide, by decide, by decide, by decide⟩
